import Mathlib

/-!
Verification development for the in-memory eviction core of the `foyer` repository.

The main subject is the W-TinyLFU eviction engine `Lfu` from
`foyer-memory-bakcup/src/eviction/lfu.rs`, together with the record flag/refcount
logic from `foyer-memory-v2/src/record.rs`, `foyer-memory-v3/src/record.rs` and
`foyer-memory-v2/src/generic.rs`.

Embedding conventions:
* Intrusive doubly linked lists (`Dlist`) are embedded as Lean `List`s of token
  ids, head = front = LRU position, tail = back = MRU position.  `push_back`
  appends, `pop_front` removes the head, `remove_raw` erases the element.
* Handles live outside the engine in Rust (the engine stores raw pointers); here
  the engine state carries an explicit store `handles : List (Nat × LfuHandle)`
  mapping token id to the handle's mutable fields.  Engine operations take token
  ids.  Out-of-contract calls (absent id) leave the state unchanged; theorems
  carry the corresponding preconditions as hypotheses.
* `f64` configuration ratios are embedded as exact rationals `ℚ`; at every
  concrete value used by the claims (`0.2`, `0.6`, capacity `10`) the `f64`
  computation in the source rounds to the same result as the exact one.
* `usize` values are embedded as `Nat`; the source's `-=` underflow is a debug
  panic and is modelled by truncated subtraction, guarded by the weight
  invariants proved below.
-/

namespace Foyer

/-- Segment membership tag, from `enum Queue` in `lfu.rs`. -/
inductive Queue where
  | None
  | Window
  | Probation
  | Protected
deriving DecidableEq, Repr, Inhabited

/-- The per-entry mutable state of `LfuHandle<T>` in `lfu.rs`: the precomputed
hash and weight from `BaseHandle`, the segment tag `queue`, and the
`IN_EVICTION` flag bit of the base handle. -/
structure LfuHandle where
  hash : Nat
  weight : Nat
  queue : Queue
  in_eviction : Bool
deriving DecidableEq, Repr, Inhabited

/-- Look up the first handle stored under a token id. -/
def findHandle : List (Nat × LfuHandle) → Nat → Option LfuHandle
  | [], _ => none
  | (k, h) :: rest, id => if k = id then some h else findHandle rest id

/-- Replace the first handle stored under a token id (no-op if absent). -/
def setHandle : List (Nat × LfuHandle) → Nat → LfuHandle → List (Nat × LfuHandle)
  | [], _, _ => []
  | (k, h) :: rest, id, h' => if k = id then (k, h') :: rest else (k, h) :: setHandle rest id h'

/-- Look up a counter in an association table, zero when absent. -/
def lookupCounter : List (Nat × Nat) → Nat → Nat
  | [], _ => 0
  | (k, c) :: rest, h => if k = h then c else lookupCounter rest h

/-- Increment (saturating at `u16::MAX`) the first counter for a hash, inserting
a fresh counter when absent. -/
def bumpCounter : List (Nat × Nat) → Nat → List (Nat × Nat)
  | [], h => [(h, 1)]
  | (k, c) :: rest, h => if k = h then (k, min (c + 1) 65535) :: rest else (k, c) :: bumpCounter rest h

/-- Modelled from the spec: the frequency sketch `cmsketch::CMSketchU16` is an
external crate, not part of this repository.  The spec describes it as a fixed
width×depth table of 16-bit saturating counters approximating per-hash access
frequency, with `inc`, `estimate` and `halve` (every counter halved).  This
model is the collision-free idealization with one saturating 16-bit counter per
hash; a real sketch may only over-estimate relative to it on hash collisions. -/
structure CMSketchU16 where
  counters : List (Nat × Nat)
  width : Nat
deriving DecidableEq, Repr, Inhabited

/-- `CMSketchU16::estimate`. -/
def CMSketchU16.estimate (s : CMSketchU16) (hash : Nat) : Nat :=
  lookupCounter s.counters hash

/-- `CMSketchU16::inc`. -/
def CMSketchU16.inc (s : CMSketchU16) (hash : Nat) : CMSketchU16 :=
  { s with counters := bumpCounter s.counters hash }

/-- `CMSketchU16::halve`: every counter is halved. -/
def CMSketchU16.halve (s : CMSketchU16) : CMSketchU16 :=
  { s with counters := s.counters.map (fun p => (p.1, p.2 / 2)) }

/-- All counters fit in 16 bits.  True of every real sketch state. -/
def CMSketchU16.Bounded (s : CMSketchU16) : Prop :=
  ∀ p ∈ s.counters, p.2 ≤ 65535

instance (s : CMSketchU16) : Decidable s.Bounded := by
  unfold CMSketchU16.Bounded; infer_instance

/-- `LfuConfig` from `lfu.rs`, with the `f64` fields embedded as `ℚ`. -/
structure LfuConfig where
  window_capacity_ratio : ℚ
  protected_capacity_ratio : ℚ
  cmsketch_eps : ℚ
  cmsketch_confidence : ℚ
deriving DecidableEq

/-- The state of `Lfu<T>` from `lfu.rs`, plus the store of externally allocated
handles addressed by token id.  The three segment lists hold token ids, head =
LRU, tail = MRU. -/
structure Lfu where
  handles : List (Nat × LfuHandle)
  window : List Nat
  probation : List Nat
  protected_ : List Nat
  window_weight : Nat
  probation_weight : Nat
  protected_weight : Nat
  window_weight_capacity : Nat
  protected_weight_capacity : Nat
  frequencies : CMSketchU16
  step : Nat
  decay : Nat
deriving DecidableEq, Repr, Inhabited

/-- Dereference a token id in the handle store. -/
def Lfu.find (s : Lfu) (id : Nat) : Option LfuHandle :=
  findHandle s.handles id

/-- Update the handle stored under a token id. -/
def Lfu.set (s : Lfu) (id : Nat) (h : LfuHandle) : Lfu :=
  { s with handles := setHandle s.handles id h }

/-- Weight of the handle stored under a token id (0 when absent). -/
def Lfu.wOf (s : Lfu) (id : Nat) : Nat :=
  match s.find id with
  | some h => h.weight
  | none => 0

/-- Hash of the handle stored under a token id (0 when absent). -/
def Lfu.hashOf (s : Lfu) (id : Nat) : Nat :=
  match s.find id with
  | some h => h.hash
  | none => 0

/-- `Lfu::increase_queue_weight`.  The `Queue::None` arm is `unreachable!()` in
the source and is modelled as the identity. -/
def Lfu.increase_queue_weight (s : Lfu) (h : LfuHandle) : Lfu :=
  match h.queue with
  | Queue.None => s
  | Queue.Window => { s with window_weight := s.window_weight + h.weight }
  | Queue.Probation => { s with probation_weight := s.probation_weight + h.weight }
  | Queue.Protected => { s with protected_weight := s.protected_weight + h.weight }

/-- `Lfu::decrease_queue_weight`.  The `Queue::None` arm is `unreachable!()` in
the source and is modelled as the identity. -/
def Lfu.decrease_queue_weight (s : Lfu) (h : LfuHandle) : Lfu :=
  match h.queue with
  | Queue.None => s
  | Queue.Window => { s with window_weight := s.window_weight - h.weight }
  | Queue.Probation => { s with probation_weight := s.probation_weight - h.weight }
  | Queue.Protected => { s with protected_weight := s.protected_weight - h.weight }

/-- `Lfu::update_frequencies`: bump the sketch, advance the step counter, and
once the step counter reaches `decay` (the sketch width) halve the step counter
and every sketch counter. -/
def Lfu.update_frequencies (s : Lfu) (hash : Nat) : Lfu :=
  let s1 : Lfu := { s with frequencies := s.frequencies.inc hash, step := s.step + 1 }
  if s1.decay ≤ s1.step then
    { s1 with step := s1.step >>> 1, frequencies := s1.frequencies.halve }
  else s1

/-- Validity of an `LfuConfig`, exactly the three `assert!`s of `Lfu::new`. -/
def LfuConfig.Valid (c : LfuConfig) : Prop :=
  (0 < c.window_capacity_ratio ∧ c.window_capacity_ratio < 1) ∧
    (0 < c.protected_capacity_ratio ∧ c.protected_capacity_ratio < 1) ∧
    c.window_capacity_ratio + c.protected_capacity_ratio < 1

instance (c : LfuConfig) : Decidable c.Valid := by
  unfold LfuConfig.Valid; infer_instance

/-- `Lfu::new`.  The source `assert!`s (fatal panics) are modelled as
`Except.error`.  The capacities are `(capacity as f64 * ratio) as usize`,
i.e. the floor of the product for these nonnegative values.  `sketch_width` is
the width the external `CMSketchU16::new(eps, confidence)` would compute (its
formula lives outside this repository); the source sets `decay` to it.
`handles` is the store of externally allocated handles. -/
def Lfu.new (capacity : Nat) (config : LfuConfig) (sketch_width : Nat)
    (handles : List (Nat × LfuHandle)) : Except String Lfu :=
  if ¬ (0 < config.window_capacity_ratio ∧ config.window_capacity_ratio < 1) then
    Except.error "window_capacity_ratio must be in (0, 1)"
  else if ¬ (0 < config.protected_capacity_ratio ∧ config.protected_capacity_ratio < 1) then
    Except.error "protected_capacity_ratio must be in (0, 1)"
  else if ¬ (config.window_capacity_ratio + config.protected_capacity_ratio < 1) then
    Except.error "must guarantee: window_capacity_ratio + protected_capacity_ratio < 1"
  else
    Except.ok
      { handles := handles
        window := []
        probation := []
        protected_ := []
        window_weight := 0
        probation_weight := 0
        protected_weight := 0
        window_weight_capacity := (⌊(capacity : ℚ) * config.window_capacity_ratio⌋).toNat
        protected_weight_capacity := (⌊(capacity : ℚ) * config.protected_capacity_ratio⌋).toNat
        frequencies := { counters := [], width := sketch_width }
        step := 0
        decay := sketch_width }

/-- One iteration of the overflow loop in `Lfu::push`: pop the `window` front,
retag it `Queue::Probation`, move its weight, and push it to the `probation`
MRU position. -/
def Lfu.demote_window_front (s : Lfu) : Lfu :=
  match s.window with
  | [] => s
  | id :: rest =>
    match s.find id with
    | none => { s with window := rest }
    | some h =>
      let s1 : Lfu := { s with window := rest }
      let s2 := s1.decrease_queue_weight h
      let h2 : LfuHandle := { h with queue := Queue.Probation }
      let s3 := s2.set id h2
      let s4 := s3.increase_queue_weight h2
      { s4 with probation := s4.probation ++ [id] }

/-- The overflow loop of `Lfu::push`: while the `window` weight exceeds its
capacity, demote the `window` LRU entry into `probation`.  Structured with
explicit fuel; `window.length` fuel always suffices because every iteration
shortens `window` by one, and an empty over-capacity `window` is the source's
`strict_assert!` violation. -/
def Lfu.window_overflow_go : Nat → Lfu → Lfu
  | 0, s => s
  | fuel + 1, s =>
    if s.window_weight ≤ s.window_weight_capacity then s
    else Lfu.window_overflow_go fuel s.demote_window_front

/-- The overflow loop of `Lfu::push` run to completion. -/
def Lfu.window_overflow (s : Lfu) : Lfu :=
  Lfu.window_overflow_go s.window.length s

/-- The straight-line part of `Lfu::push`: append the entry at the `window` MRU
position, set `IN_EVICTION`, tag it `Queue::Window`, account its weight, and
bump the frequency sketch. -/
def Lfu.push_start (s : Lfu) (id : Nat) : Lfu :=
  match s.find id with
  | none => s
  | some h =>
    let h1 : LfuHandle := { h with in_eviction := true, queue := Queue.Window }
    let s1 : Lfu := { s with window := s.window ++ [id] }
    let s2 := s1.set id h1
    let s3 := s2.increase_queue_weight h1
    s3.update_frequencies h1.hash

/-- `Lfu::push`: admit at the `window` MRU position, then run the overflow
loop. -/
def Lfu.push (s : Lfu) (id : Nat) : Lfu :=
  (s.push_start id).window_overflow

/-- The bookkeeping after `Lfu::pop` unlinks a victim: decrement its segment
weight, reset its tag to `Queue::None`, and clear `IN_EVICTION`. -/
def Lfu.pop_finish (s : Lfu) (id : Nat) : Lfu :=
  match s.find id with
  | none => s
  | some h =>
    let s1 := s.decrease_queue_weight h
    s1.set id { h with queue := Queue.None, in_eviction := false }

/-- `Lfu::pop`: compare the frequency estimates of the `window` and `probation`
fronts and evict the strictly lower one (ties and one-sided cases fall to
`probation` resp. the non-empty side); only when both are empty evict the
`protected` front.  Returns the evicted token id and the new state. -/
def Lfu.pop (s : Lfu) : Option (Nat × Lfu) :=
  let picked : Option (Nat × Lfu) :=
    match s.window, s.probation with
    | [], [] => none
    | [], p :: prest => some (p, { s with probation := prest })
    | w :: wrest, [] => some (w, { s with window := wrest })
    | w :: wrest, p :: prest =>
      if s.frequencies.estimate (s.hashOf w) < s.frequencies.estimate (s.hashOf p) then
        some (w, { s with window := wrest })
      else
        some (p, { s with probation := prest })
  let picked2 : Option (Nat × Lfu) :=
    match picked with
    | some x => some x
    | none =>
      match s.protected_ with
      | [] => none
      | q :: qrest => some (q, { s with protected_ := qrest })
  match picked2 with
  | none => none
  | some (id, s') => some (id, s'.pop_finish id)

/-- One iteration of the overflow loop in the `Queue::Probation` arm of
`Lfu::release`: pop the `protected` front, retag it `Queue::Probation`, move
its weight, and push it to the `probation` MRU position. -/
def Lfu.demote_protected_front (s : Lfu) : Lfu :=
  match s.protected_ with
  | [] => s
  | id :: rest =>
    match s.find id with
    | none => { s with protected_ := rest }
    | some h =>
      let s1 : Lfu := { s with protected_ := rest }
      let s2 := s1.decrease_queue_weight h
      let h2 : LfuHandle := { h with queue := Queue.Probation }
      let s3 := s2.set id h2
      let s4 := s3.increase_queue_weight h2
      { s4 with probation := s4.probation ++ [id] }

/-- The overflow loop of the `Queue::Probation` arm of `Lfu::release`: while
the `protected` weight exceeds its capacity, demote the `protected` LRU entry
into `probation`.  Fuel as in `Lfu.window_overflow_go`. -/
def Lfu.protected_overflow_go : Nat → Lfu → Lfu
  | 0, s => s
  | fuel + 1, s =>
    if s.protected_weight ≤ s.protected_weight_capacity then s
    else Lfu.protected_overflow_go fuel s.demote_protected_front

/-- The overflow loop of the `Queue::Probation` arm of `Lfu::release` run to
completion. -/
def Lfu.protected_overflow (s : Lfu) : Lfu :=
  Lfu.protected_overflow_go s.protected_.length s

/-- `Lfu::release`: untracked entries are pushed afresh; `window` and
`protected` entries get a pure recency bump to their segment's MRU position; a
`probation` entry is promoted to the `protected` MRU position followed by the
protected overflow loop. -/
def Lfu.release (s : Lfu) (id : Nat) : Lfu :=
  match s.find id with
  | none => s
  | some h =>
    match h.queue with
    | Queue.None => s.push id
    | Queue.Window => { s with window := s.window.erase id ++ [id] }
    | Queue.Probation =>
      let s1 : Lfu := { s with probation := s.probation.erase id }
      let s2 := s1.decrease_queue_weight h
      let h2 : LfuHandle := { h with queue := Queue.Protected }
      let s3 := s2.set id h2
      let s4 := s3.increase_queue_weight h2
      let s5 : Lfu := { s4 with protected_ := s4.protected_ ++ [id] }
      s5.protected_overflow
    | Queue.Protected => { s with protected_ := s.protected_.erase id ++ [id] }

/-- `Lfu::acquire`: bump the frequency sketch for the entry's hash; segment
membership is untouched. -/
def Lfu.acquire (s : Lfu) (id : Nat) : Lfu :=
  match s.find id with
  | none => s
  | some h => s.update_frequencies h.hash

/-- `Lfu::remove`: unlink a tracked entry from its segment, decrement that
segment's weight, reset its tag and clear `IN_EVICTION`.  The `Queue::None`
arm is `unreachable!()` in the source and is modelled as the identity. -/
def Lfu.remove (s : Lfu) (id : Nat) : Lfu :=
  match s.find id with
  | none => s
  | some h =>
    match h.queue with
    | Queue.None => s
    | Queue.Window =>
      let s1 : Lfu := { s with window := s.window.erase id }
      let s2 := s1.decrease_queue_weight h
      s2.set id { h with queue := Queue.None, in_eviction := false }
    | Queue.Probation =>
      let s1 : Lfu := { s with probation := s.probation.erase id }
      let s2 := s1.decrease_queue_weight h
      s2.set id { h with queue := Queue.None, in_eviction := false }
    | Queue.Protected =>
      let s1 : Lfu := { s with protected_ := s.protected_.erase id }
      let s2 := s1.decrease_queue_weight h
      s2.set id { h with queue := Queue.None, in_eviction := false }

/-- The test-suite `dump`: `window`, then `probation`, then `protected`, each
front to back. -/
def Lfu.dump (s : Lfu) : List Nat :=
  s.window ++ s.probation ++ s.protected_

/-- `Lfu::len`. -/
def Lfu.len (s : Lfu) : Nat :=
  s.window.length + s.probation.length + s.protected_.length

/-! Concrete fixtures shared by the end-to-end claims: the configuration of the
source test `test_lfu` (`capacity = 10`, `window_capacity_ratio = 0.2`,
`protected_capacity_ratio = 0.6`) and unit-weight handles with `hash i = i` as
initialized by `handle.init(i, i, 1, ..)` there.  `272` is a sketch width large
enough that the decay step never triggers in these runs (any width above the
number of increments behaves identically). -/

/-- The `LfuConfig` of the source test `test_lfu`, ratios as exact rationals. -/
def testConfig : LfuConfig :=
  { window_capacity_ratio := 2/10
    protected_capacity_ratio := 6/10
    cmsketch_eps := 1/100
    cmsketch_confidence := 95/100 }

/-- `n` unit-weight untracked handles with `hash i = i`. -/
def unitHandles (n : Nat) : List (Nat × LfuHandle) :=
  (List.range n).map (fun i => (i, { hash := i, weight := 1, queue := Queue.None, in_eviction := false }))

/-- The freshly constructed engine of the end-to-end claims. -/
def engine0 : Lfu :=
  (Lfu.new 10 testConfig 272 (unitHandles 10)).toOption.getD default

/-- The engine after pushing the ten unit-weight keys `0..9` in order. -/
def pushed10 : Lfu :=
  (List.range 10).foldl Lfu.push engine0

/-- The release sequence stated by claim C3: keys `3,4,5,6`, then `3,4`, then
`1,2,7,8`. -/
def c3Seq : List Nat := [3, 4, 5, 6, 3, 4, 1, 2, 7, 8]

/-- The engine after applying the C3 release sequence to `pushed10`. -/
def c3Final : Lfu :=
  c3Seq.foldl Lfu.release pushed10

/-- The engine of the C2 counterexample: sketch width 3, one unit handle, after
`push 0` and one `acquire 0` (so `step = 2`, counter for hash 0 at 2; the next
increment reaches the decay threshold). -/
def c2Before : Lfu :=
  (((Lfu.new 10 testConfig 3 (unitHandles 1)).toOption.getD default).push 0).acquire 0

/-- The handle store of the C4 counterexample: a single handle of weight 10,
larger than the protected capacity 6. -/
def heavyHandles : List (Nat × LfuHandle) :=
  [(0, { hash := 0, weight := 10, queue := Queue.None, in_eviction := false })]

/-- The engine of the C4 counterexample after pushing the weight-10 entry
(which immediately overflows from `window` into `probation`). -/
def c4Before : Lfu :=
  ((Lfu.new 10 testConfig 272 heavyHandles).toOption.getD default).push 0

/-! The `f64` arithmetic of `Lfu::new` does not reduce inside the kernel once
embedded as `ℚ`, so the concrete end-to-end runs are evaluated against an
explicit fresh state proved (by `norm_num`) equal to the constructed one. -/

/-- Explicit form of a fresh engine at the test configuration
(`capacity = 10`, ratios `0.2` / `0.6`): capacities 2 and 6, everything else
empty. -/
def freshEngine (w : Nat) (hs : List (Nat × LfuHandle)) : Lfu :=
  { handles := hs
    window := []
    probation := []
    protected_ := []
    window_weight := 0
    probation_weight := 0
    protected_weight := 0
    window_weight_capacity := 2
    protected_weight_capacity := 6
    frequencies := { counters := [], width := w }
    step := 0
    decay := w }

/-- Constructing at the test configuration succeeds and yields the explicit
fresh state. -/
theorem new_testConfig (w : Nat) (hs : List (Nat × LfuHandle)) :
    Lfu.new 10 testConfig w hs = Except.ok (freshEngine w hs) := by
  unfold Lfu.new testConfig freshEngine
  norm_num
  decide

/-- `engine0` in explicit form. -/
theorem engine0_eq : engine0 = freshEngine 272 (unitHandles 10) := by
  unfold engine0
  rw [new_testConfig]
  rfl

/-- `c2Before` in explicit form (reached from the fresh width-3 engine). -/
theorem c2Before_eq :
    c2Before = (((freshEngine 3 (unitHandles 1)).push 0).acquire 0 : Lfu) := by
  unfold c2Before
  rw [new_testConfig]
  rfl

/-- `c4Before` in explicit form (reached from the fresh heavy-handle engine). -/
theorem c4Before_eq : c4Before = ((freshEngine 272 heavyHandles).push 0 : Lfu) := by
  unfold c4Before
  rw [new_testConfig]
  rfl

/-! ### Lemmas about the handle store -/

theorem findHandle_setHandle_self (l : List (Nat × LfuHandle)) (id : Nat) (h h0 : LfuHandle)
    (hf : findHandle l id = some h0) : findHandle (setHandle l id h) id = some h := by
  induction l with
  | nil => simp [findHandle] at hf
  | cons p rest ih =>
    obtain ⟨k, g⟩ := p
    by_cases hk : k = id
    · subst hk
      simp [findHandle, setHandle]
    · simp only [findHandle, setHandle, if_neg hk] at hf ⊢
      exact ih hf

theorem findHandle_setHandle_ne (l : List (Nat × LfuHandle)) (id k : Nat) (h : LfuHandle)
    (hne : k ≠ id) : findHandle (setHandle l id h) k = findHandle l k := by
  induction l with
  | nil => simp [setHandle]
  | cons p rest ih =>
    obtain ⟨k', g⟩ := p
    by_cases hk : k' = id
    · subst hk
      have hkk : ¬ k' = k := fun hh => hne hh.symm
      simp [setHandle, findHandle, hkk]
    · by_cases hkk : k' = k
      · simp [setHandle, findHandle, hk, hkk, hne]
      · simp [setHandle, findHandle, hk, hkk, ih]

theorem keys_setHandle (l : List (Nat × LfuHandle)) (id : Nat) (h : LfuHandle) :
    (setHandle l id h).map Prod.fst = l.map Prod.fst := by
  induction l with
  | nil => rfl
  | cons p rest ih =>
    obtain ⟨k, g⟩ := p
    by_cases hk : k = id
    · simp [setHandle, hk]
    · simp [setHandle, hk, ih]

theorem findHandle_mem (l : List (Nat × LfuHandle)) (id : Nat) (h : LfuHandle)
    (hf : findHandle l id = some h) : (id, h) ∈ l := by
  induction l with
  | nil => simp [findHandle] at hf
  | cons p rest ih =>
    obtain ⟨k, g⟩ := p
    by_cases hk : k = id
    · subst hk
      simp [findHandle] at hf
      subst hf
      exact List.mem_cons_self ..
    · simp only [findHandle, if_neg hk] at hf
      exact List.mem_cons_of_mem _ (ih hf)

theorem setHandle_of_find_none (l : List (Nat × LfuHandle)) (id : Nat) (h : LfuHandle)
    (hf : findHandle l id = none) : setHandle l id h = l := by
  induction l with
  | nil => rfl
  | cons p rest ih =>
    obtain ⟨k, g⟩ := p
    by_cases hk : k = id
    · simp [findHandle, hk] at hf
    · simp only [findHandle, if_neg hk] at hf
      simp [setHandle, hk, ih hf]

theorem mem_setHandle (l : List (Nat × LfuHandle)) (id : Nat) (h h' : LfuHandle)
    (q : Nat × LfuHandle) (hnd : (l.map Prod.fst).Nodup) (hf : findHandle l id = some h)
    (hq : q ∈ setHandle l id h') : (q ∈ l ∧ q.1 ≠ id) ∨ q = (id, h') := by
  induction l with
  | nil => simp [findHandle] at hf
  | cons p rest ih =>
    obtain ⟨k, g⟩ := p
    simp only [List.map_cons, List.nodup_cons] at hnd
    by_cases hk : k = id
    · subst hk
      simp only [setHandle, if_pos rfl] at hq
      rcases List.mem_cons.mp hq with hq | hq
      · exact Or.inr hq
      · refine Or.inl ⟨List.mem_cons_of_mem _ hq, ?_⟩
        intro hcon
        exact hnd.1 (by simpa [hcon] using List.mem_map_of_mem Prod.fst hq)
    · simp only [setHandle, if_neg hk] at hq
      simp only [findHandle, if_neg hk] at hf
      rcases List.mem_cons.mp hq with hq | hq
      · exact Or.inl ⟨by simp [hq], by simp [hq, hk]⟩
      · rcases ih hnd.2 hf hq with ⟨hm, hne⟩ | he
        · exact Or.inl ⟨List.mem_cons_of_mem _ hm, hne⟩
        · exact Or.inr he

/-! ### Component-preservation lemmas for the state helpers -/

@[simp] theorem set_window (s : Lfu) (id : Nat) (h : LfuHandle) :
    (s.set id h).window = s.window := rfl

@[simp] theorem set_probation (s : Lfu) (id : Nat) (h : LfuHandle) :
    (s.set id h).probation = s.probation := rfl

@[simp] theorem set_protected (s : Lfu) (id : Nat) (h : LfuHandle) :
    (s.set id h).protected_ = s.protected_ := rfl

@[simp] theorem set_window_weight (s : Lfu) (id : Nat) (h : LfuHandle) :
    (s.set id h).window_weight = s.window_weight := rfl

@[simp] theorem set_probation_weight (s : Lfu) (id : Nat) (h : LfuHandle) :
    (s.set id h).probation_weight = s.probation_weight := rfl

@[simp] theorem set_protected_weight (s : Lfu) (id : Nat) (h : LfuHandle) :
    (s.set id h).protected_weight = s.protected_weight := rfl

@[simp] theorem set_window_weight_capacity (s : Lfu) (id : Nat) (h : LfuHandle) :
    (s.set id h).window_weight_capacity = s.window_weight_capacity := rfl

@[simp] theorem set_protected_weight_capacity (s : Lfu) (id : Nat) (h : LfuHandle) :
    (s.set id h).protected_weight_capacity = s.protected_weight_capacity := rfl

@[simp] theorem set_handles (s : Lfu) (id : Nat) (h : LfuHandle) :
    (s.set id h).handles = setHandle s.handles id h := rfl

theorem find_set_self (s : Lfu) (id : Nat) (h h0 : LfuHandle) (hf : s.find id = some h0) :
    (s.set id h).find id = some h :=
  findHandle_setHandle_self s.handles id h h0 hf

theorem find_set_ne (s : Lfu) (id k : Nat) (h : LfuHandle) (hne : k ≠ id) :
    (s.set id h).find k = s.find k :=
  findHandle_setHandle_ne s.handles id k h hne

theorem wOf_set (s : Lfu) (id : Nat) (h h0 : LfuHandle) (hf : s.find id = some h0)
    (hw : h.weight = h0.weight) (k : Nat) : (s.set id h).wOf k = s.wOf k := by
  by_cases hk : k = id
  · subst hk
    unfold Lfu.wOf
    rw [find_set_self s k h h0 hf, hf]
    simpa using hw
  · unfold Lfu.wOf
    rw [find_set_ne s id k h hk]

section QueueWeight

variable (s : Lfu) (h : LfuHandle)

@[simp] theorem increase_queue_weight_handles :
    (s.increase_queue_weight h).handles = s.handles := by
  cases hq : h.queue <;> simp [Lfu.increase_queue_weight, hq]

@[simp] theorem increase_queue_weight_window :
    (s.increase_queue_weight h).window = s.window := by
  cases hq : h.queue <;> simp [Lfu.increase_queue_weight, hq]

@[simp] theorem increase_queue_weight_probation :
    (s.increase_queue_weight h).probation = s.probation := by
  cases hq : h.queue <;> simp [Lfu.increase_queue_weight, hq]

@[simp] theorem increase_queue_weight_protected :
    (s.increase_queue_weight h).protected_ = s.protected_ := by
  cases hq : h.queue <;> simp [Lfu.increase_queue_weight, hq]

@[simp] theorem increase_queue_weight_wwc :
    (s.increase_queue_weight h).window_weight_capacity = s.window_weight_capacity := by
  cases hq : h.queue <;> simp [Lfu.increase_queue_weight, hq]

@[simp] theorem increase_queue_weight_pwc :
    (s.increase_queue_weight h).protected_weight_capacity = s.protected_weight_capacity := by
  cases hq : h.queue <;> simp [Lfu.increase_queue_weight, hq]

@[simp] theorem increase_queue_weight_find (k : Nat) :
    (s.increase_queue_weight h).find k = s.find k := by
  cases hq : h.queue <;> simp [Lfu.increase_queue_weight, Lfu.find, hq]

@[simp] theorem increase_queue_weight_wOf (k : Nat) :
    (s.increase_queue_weight h).wOf k = s.wOf k := by
  cases hq : h.queue <;> simp [Lfu.increase_queue_weight, Lfu.wOf, Lfu.find, hq]

@[simp] theorem decrease_queue_weight_handles :
    (s.decrease_queue_weight h).handles = s.handles := by
  cases hq : h.queue <;> simp [Lfu.decrease_queue_weight, hq]

@[simp] theorem decrease_queue_weight_window :
    (s.decrease_queue_weight h).window = s.window := by
  cases hq : h.queue <;> simp [Lfu.decrease_queue_weight, hq]

@[simp] theorem decrease_queue_weight_probation :
    (s.decrease_queue_weight h).probation = s.probation := by
  cases hq : h.queue <;> simp [Lfu.decrease_queue_weight, hq]

@[simp] theorem decrease_queue_weight_protected :
    (s.decrease_queue_weight h).protected_ = s.protected_ := by
  cases hq : h.queue <;> simp [Lfu.decrease_queue_weight, hq]

@[simp] theorem decrease_queue_weight_wwc :
    (s.decrease_queue_weight h).window_weight_capacity = s.window_weight_capacity := by
  cases hq : h.queue <;> simp [Lfu.decrease_queue_weight, hq]

@[simp] theorem decrease_queue_weight_pwc :
    (s.decrease_queue_weight h).protected_weight_capacity = s.protected_weight_capacity := by
  cases hq : h.queue <;> simp [Lfu.decrease_queue_weight, hq]

@[simp] theorem decrease_queue_weight_find (k : Nat) :
    (s.decrease_queue_weight h).find k = s.find k := by
  cases hq : h.queue <;> simp [Lfu.decrease_queue_weight, Lfu.find, hq]

@[simp] theorem decrease_queue_weight_wOf (k : Nat) :
    (s.decrease_queue_weight h).wOf k = s.wOf k := by
  cases hq : h.queue <;> simp [Lfu.decrease_queue_weight, Lfu.wOf, Lfu.find, hq]

theorem increase_queue_weight_window_weight_of_window (hq : h.queue = Queue.Window) :
    (s.increase_queue_weight h).window_weight = s.window_weight + h.weight := by
  simp [Lfu.increase_queue_weight, hq]

theorem increase_queue_weight_protected_weight_of_protected (hq : h.queue = Queue.Protected) :
    (s.increase_queue_weight h).protected_weight = s.protected_weight + h.weight := by
  simp [Lfu.increase_queue_weight, hq]

theorem increase_queue_weight_probation_weight_of_probation (hq : h.queue = Queue.Probation) :
    (s.increase_queue_weight h).probation_weight = s.probation_weight + h.weight := by
  simp [Lfu.increase_queue_weight, hq]

end QueueWeight

section UpdateFrequencies

variable (s : Lfu) (x : Nat)

@[simp] theorem update_frequencies_handles : (s.update_frequencies x).handles = s.handles := by
  unfold Lfu.update_frequencies
  dsimp only
  split <;> rfl

@[simp] theorem update_frequencies_window : (s.update_frequencies x).window = s.window := by
  unfold Lfu.update_frequencies
  dsimp only
  split <;> rfl

@[simp] theorem update_frequencies_probation :
    (s.update_frequencies x).probation = s.probation := by
  unfold Lfu.update_frequencies
  dsimp only
  split <;> rfl

@[simp] theorem update_frequencies_protected :
    (s.update_frequencies x).protected_ = s.protected_ := by
  unfold Lfu.update_frequencies
  dsimp only
  split <;> rfl

@[simp] theorem update_frequencies_window_weight :
    (s.update_frequencies x).window_weight = s.window_weight := by
  unfold Lfu.update_frequencies
  dsimp only
  split <;> rfl

@[simp] theorem update_frequencies_probation_weight :
    (s.update_frequencies x).probation_weight = s.probation_weight := by
  unfold Lfu.update_frequencies
  dsimp only
  split <;> rfl

@[simp] theorem update_frequencies_protected_weight :
    (s.update_frequencies x).protected_weight = s.protected_weight := by
  unfold Lfu.update_frequencies
  dsimp only
  split <;> rfl

@[simp] theorem update_frequencies_wwc :
    (s.update_frequencies x).window_weight_capacity = s.window_weight_capacity := by
  unfold Lfu.update_frequencies
  dsimp only
  split <;> rfl

@[simp] theorem update_frequencies_pwc :
    (s.update_frequencies x).protected_weight_capacity = s.protected_weight_capacity := by
  unfold Lfu.update_frequencies
  dsimp only
  split <;> rfl

@[simp] theorem update_frequencies_find (k : Nat) :
    (s.update_frequencies x).find k = s.find k := by
  unfold Lfu.update_frequencies
  dsimp only
  split <;> rfl

@[simp] theorem update_frequencies_wOf (k : Nat) :
    (s.update_frequencies x).wOf k = s.wOf k := by
  unfold Lfu.wOf
  rw [update_frequencies_find]

end UpdateFrequencies

/-! ### Lemmas about the frequency sketch -/

theorem lookupCounter_bumpCounter_self (l : List (Nat × Nat)) (x : Nat) :
    lookupCounter (bumpCounter l x) x = min (lookupCounter l x + 1) 65535 := by
  induction l with
  | nil => simp [bumpCounter, lookupCounter]
  | cons p rest ih =>
    obtain ⟨k, c⟩ := p
    by_cases hk : k = x
    · subst hk
      simp [bumpCounter, lookupCounter]
    · simp [bumpCounter, lookupCounter, hk, ih]

theorem lookupCounter_le_of_bounded (l : List (Nat × Nat)) (x : Nat)
    (hb : ∀ p ∈ l, p.2 ≤ 65535) : lookupCounter l x ≤ 65535 := by
  induction l with
  | nil => simp [lookupCounter]
  | cons p rest ih =>
    obtain ⟨k, c⟩ := p
    by_cases hk : k = x
    · subst hk
      simpa [lookupCounter] using hb (k, c) (List.mem_cons_self ..)
    · simp only [lookupCounter, if_neg hk]
      exact ih (fun q hq => hb q (List.mem_cons_of_mem _ hq))

theorem estimate_inc_self (f : CMSketchU16) (x : Nat) :
    (f.inc x).estimate x = min (f.estimate x + 1) 65535 := by
  unfold CMSketchU16.estimate CMSketchU16.inc
  exact lookupCounter_bumpCounter_self f.counters x

/-! ### Behaviour of `Lfu.pop` by case on the segment fronts -/

theorem pop_both_fronts (s : Lfu) (w p : Nat) (wrest prest : List Nat)
    (hw : s.window = w :: wrest) (hp : s.probation = p :: prest) :
    (s.pop).map Prod.fst =
      some (if s.frequencies.estimate (s.hashOf w) < s.frequencies.estimate (s.hashOf p)
            then w else p) := by
  unfold Lfu.pop
  rw [hw, hp]
  dsimp only
  by_cases hc : s.frequencies.estimate (s.hashOf w) < s.frequencies.estimate (s.hashOf p)
  · simp only [if_pos hc]
    rfl
  · simp only [if_neg hc]
    rfl

theorem pop_window_only (s : Lfu) (w : Nat) (wrest : List Nat)
    (hw : s.window = w :: wrest) (hp : s.probation = []) :
    (s.pop).map Prod.fst = some w := by
  unfold Lfu.pop
  rw [hw, hp]
  rfl

theorem pop_probation_only (s : Lfu) (p : Nat) (prest : List Nat)
    (hw : s.window = []) (hp : s.probation = p :: prest) :
    (s.pop).map Prod.fst = some p := by
  unfold Lfu.pop
  rw [hw, hp]
  rfl

theorem pop_empty_empty (s : Lfu) (hw : s.window = []) (hp : s.probation = []) :
    (s.pop).map Prod.fst = s.protected_.head? := by
  unfold Lfu.pop
  rw [hw, hp]
  dsimp only
  cases hq : s.protected_ <;> rfl

/-! ### Claim theorems -/

/-- C10: engine construction computes `window_cap` and `protected_cap` as the
floor of `capacity * ratio` (the `f64` cast-to-`usize`, embedded over `ℚ`);
at capacity 10 with ratios 0.2 and 0.6 this gives 2 and 6. -/
theorem c10_capacity_floor :
    (∀ (capacity sketch_width : Nat) (config : LfuConfig) (hs : List (Nat × LfuHandle)) (s : Lfu),
        Lfu.new capacity config sketch_width hs = Except.ok s →
        s.window_weight_capacity = (⌊(capacity : ℚ) * config.window_capacity_ratio⌋).toNat ∧
        s.protected_weight_capacity = (⌊(capacity : ℚ) * config.protected_capacity_ratio⌋).toNat) ∧
    engine0.window_weight_capacity = 2 ∧ engine0.protected_weight_capacity = 6 := by
  refine ⟨?_, ?_, ?_⟩
  · intro capacity sw config hs s hok
    unfold Lfu.new at hok
    split at hok
    · cases hok
    · split at hok
      · cases hok
      · split at hok
        · cases hok
        · cases hok
          exact ⟨rfl, rfl⟩
  · rw [engine0_eq]
    rfl
  · rw [engine0_eq]
    rfl

/-- Witness for C10 at the concrete test construction. -/
theorem c10_capacity_floor_witness :
    (freshEngine 272 (unitHandles 10)).window_weight_capacity =
        (⌊((10 : Nat) : ℚ) * testConfig.window_capacity_ratio⌋).toNat ∧
    (freshEngine 272 (unitHandles 10)).protected_weight_capacity =
        (⌊((10 : Nat) : ℚ) * testConfig.protected_capacity_ratio⌋).toNat :=
  c10_capacity_floor.1 10 272 testConfig (unitHandles 10) (freshEngine 272 (unitHandles 10))
    (new_testConfig 272 (unitHandles 10))

/-- C9: `Lfu::new` fails (fatally) exactly when the config violates
`0 < window_ratio < 1`, `0 < protected_ratio < 1` or
`window_ratio + protected_ratio < 1`; on every valid config it succeeds with an
empty engine. -/
theorem c9_new_validation (capacity sketch_width : Nat) (config : LfuConfig)
    (hs : List (Nat × LfuHandle)) :
    (∃ s : Lfu, Lfu.new capacity config sketch_width hs = Except.ok s ∧
        s.window = [] ∧ s.probation = [] ∧ s.protected_ = [] ∧
        s.window_weight = 0 ∧ s.probation_weight = 0 ∧ s.protected_weight = 0 ∧
        s.len = 0) ↔
      config.Valid := by
  unfold Lfu.new LfuConfig.Valid
  by_cases h1 : 0 < config.window_capacity_ratio ∧ config.window_capacity_ratio < 1
  · by_cases h2 : 0 < config.protected_capacity_ratio ∧ config.protected_capacity_ratio < 1
    · by_cases h3 : config.window_capacity_ratio + config.protected_capacity_ratio < 1
      · rw [if_neg (not_not_intro h1), if_neg (not_not_intro h2), if_neg (not_not_intro h3)]
        constructor
        · intro _
          exact ⟨h1, h2, h3⟩
        · intro _
          exact ⟨_, rfl, rfl, rfl, rfl, rfl, rfl, rfl, rfl⟩
      · rw [if_neg (not_not_intro h1), if_neg (not_not_intro h2), if_pos h3]
        constructor
        · rintro ⟨s, hok, -⟩
          cases hok
        · rintro ⟨-, -, hc⟩
          exact absurd hc h3
    · rw [if_neg (not_not_intro h1), if_pos h2]
      constructor
      · rintro ⟨s, hok, -⟩
        cases hok
      · rintro ⟨-, hc, -⟩
        exact absurd hc h2
  · rw [if_pos h1]
    constructor
    · rintro ⟨s, hok, -⟩
      cases hok
    · rintro ⟨hc, -⟩
      exact absurd hc h1

/-- C5: pushing keys 0..9 into the fresh capacity-10 engine leaves 2 entries in
`window`, 8 in `probation`, 0 in `protected`, dump `[8,9,0,1,2,3,4,5,6,7]`;
every push enters at the `window` MRU position, and each overflow step demotes
the `window` LRU entry to the `probation` MRU position. -/
theorem c5_push_sequence :
    pushed10.window.length = 2 ∧ pushed10.probation.length = 8 ∧
    pushed10.protected_.length = 0 ∧
    pushed10.dump = [8, 9, 0, 1, 2, 3, 4, 5, 6, 7] ∧
    (∀ (s : Lfu) (id : Nat) (h : LfuHandle), s.find id = some h →
        (s.push_start id).window.getLast? = some id ∧
        s.push id = (s.push_start id).window_overflow) ∧
    (∀ (s : Lfu) (id : Nat) (rest : List Nat) (h : LfuHandle),
        s.window = id :: rest → s.find id = some h →
        (s.demote_window_front).window = rest ∧
        (s.demote_window_front).probation = s.probation ++ [id] ∧
        (s.demote_window_front).find id = some { h with queue := Queue.Probation }) := by
  refine ⟨?_, ?_, ?_, ?_, ?_, ?_⟩
  · simp only [pushed10, engine0_eq]
    decide
  · simp only [pushed10, engine0_eq]
    decide
  · simp only [pushed10, engine0_eq]
    decide
  · simp only [pushed10, engine0_eq]
    decide
  · intro s id h hf
    refine ⟨?_, rfl⟩
    unfold Lfu.push_start
    rw [hf]
    simp
  · intro s id rest h hw hf
    unfold Lfu.demote_window_front
    rw [hw]
    dsimp only
    rw [hf]
    dsimp only
    refine ⟨by simp, by simp, ?_⟩
    simp only [Lfu.find, set_handles, increase_queue_weight_handles, decrease_queue_weight_handles]
    exact findHandle_setHandle_self s.handles id _ h hf

/-- Witness for the universally quantified parts of C5 at concrete inputs. -/
theorem c5_push_sequence_witness :
    (((freshEngine 272 (unitHandles 10)).push_start 0).window.getLast? = some 0 ∧
      (freshEngine 272 (unitHandles 10)).push 0 =
        ((freshEngine 272 (unitHandles 10)).push_start 0).window_overflow) ∧
    (((freshEngine 272 (unitHandles 10)).push 0).demote_window_front).window = [] := by
  constructor
  · exact c5_push_sequence.2.2.2.2.1 (freshEngine 272 (unitHandles 10)) 0
      { hash := 0, weight := 1, queue := Queue.None, in_eviction := false } (by decide)
  · have := (c5_push_sequence.2.2.2.2.2 ((freshEngine 272 (unitHandles 10)).push 0) 0 []
      { hash := 0, weight := 1, queue := Queue.Window, in_eviction := true }
      (by decide) (by decide)).1
    simpa using this

/-- C1 counterexample: in the state reached by pushing keys 0..9, the first
`pop` does return key 0, but key 0 is the front of `probation`, not the front
of `window` (which is key 8), so the claim's identification of key 0 as the
Window front is false. -/
theorem c1_counterexample :
    (pushed10.pop).map Prod.fst = some 0 ∧
    pushed10.probation.head? = some 0 ∧
    pushed10.window.head? = some 8 ∧ ¬ pushed10.window.head? = some 0 := by
  simp only [pushed10, engine0_eq]
  decide

/-- C1 (amended): with both fronts present, `pop` evicts the front whose
frequency estimate is strictly lower, ties falling to the `probation` front;
in the pushed-0..9 state (all estimates 1) the first pop therefore returns key
0 = the `probation` front; `protected` is popped only when both `window` and
`probation` are empty. -/
theorem c1_pop_victim_selection :
    ((pushed10.pop).map Prod.fst = some 0 ∧
      pushed10.probation.head? = some 0 ∧ pushed10.window.head? = some 8) ∧
    (∀ (s : Lfu) (w p : Nat) (wrest prest : List Nat),
        s.window = w :: wrest → s.probation = p :: prest →
        (s.pop).map Prod.fst =
          some (if s.frequencies.estimate (s.hashOf w) < s.frequencies.estimate (s.hashOf p)
                then w else p)) ∧
    (∀ s : Lfu, s.window = [] → s.probation = [] →
        (s.pop).map Prod.fst = s.protected_.head?) := by
  refine ⟨?_, pop_both_fronts, pop_empty_empty⟩
  simp only [pushed10, engine0_eq]
  decide

/-- Witness for the universally quantified parts of C1 at a concrete state. -/
theorem c1_pop_victim_selection_witness :
    (((List.range 10).foldl Lfu.push (freshEngine 272 (unitHandles 10))).pop).map Prod.fst =
      some (if ((List.range 10).foldl Lfu.push (freshEngine 272 (unitHandles 10))).frequencies.estimate
                (((List.range 10).foldl Lfu.push (freshEngine 272 (unitHandles 10))).hashOf 8) <
              ((List.range 10).foldl Lfu.push (freshEngine 272 (unitHandles 10))).frequencies.estimate
                (((List.range 10).foldl Lfu.push (freshEngine 272 (unitHandles 10))).hashOf 0)
            then 8 else 0) :=
  c1_pop_victim_selection.2.1 _ 8 0 [9] [1, 2, 3, 4, 5, 6, 7] (by decide) (by decide)

/-- C3 counterexample: after pushing 0..9 and releasing 3,4,5,6 then 3,4 then
1,2,7,8, the segment lengths are 2/2/6 as claimed but the dump differs from the
claimed `[0,9,5,6,3,4,1,2,7,8]` (that order arises only after the additional
pop/release of keys 0 and 9 performed by the source test before the releases). -/
theorem c3_counterexample :
    c3Final.window.length = 2 ∧ c3Final.probation.length = 2 ∧
    c3Final.protected_.length = 6 ∧
    ¬ c3Final.dump = [0, 9, 5, 6, 3, 4, 1, 2, 7, 8] := by
  simp only [c3Final, c3Seq, pushed10, engine0_eq]
  decide

/-- C3 (amended): the stated operation sequence leaves `window` length 2,
`probation` length 2, `protected` length 6 and dump
`[9, 8, 0, 5, 6, 3, 4, 1, 2, 7]`. -/
theorem c3_release_sequence :
    c3Final.window.length = 2 ∧ c3Final.probation.length = 2 ∧
    c3Final.protected_.length = 6 ∧
    c3Final.dump = [9, 8, 0, 5, 6, 3, 4, 1, 2, 7] := by
  simp only [c3Final, c3Seq, pushed10, engine0_eq]
  decide

/-! ### Record refcount and flag logic (`generic.rs`, `record.rs`) -/

/-- `usize::MAX + 1` (64-bit platform). -/
def USIZE_MOD : Nat := 2 ^ 64

/-- `impl Clone for GenericCacheEntry` in `foyer-memory-v2/src/generic.rs`:
`self.record().refs().fetch_add(1, SeqCst)` — a wrapping increment of the
record's atomic refcount.  Returns the new counter value. -/
def GenericCacheEntry.cloneRefs (refs : Nat) : Nat :=
  (refs + 1) % USIZE_MOD

/-- `impl Drop for GenericCacheEntry` in `foyer-memory-v2/src/generic.rs`:
`if self.record().refs().fetch_sub(1, SeqCst) == 0 { ..slow path.. }` —
a wrapping decrement, with the reclamation slow path entered iff the value
`fetch_sub` RETURNS, which is the PRE-decrement count, equals 0.  Returns
(new counter value, slow path entered). -/
def GenericCacheEntry.dropRefs (refs : Nat) : Nat × Bool :=
  ((refs + (USIZE_MOD - 1)) % USIZE_MOD, refs == 0)

/-- C7: evaluation of the clone/drop refcount logic.  Cloning increments the
count by one, but dropping the last handle of a record with refcount 1 brings
the count to 0 without entering the reclamation slow path, and the slow path is
instead entered when the pre-decrement count is already 0, underflowing the
counter to `usize::MAX`. -/
theorem c7_drop_refcount_check :
    GenericCacheEntry.cloneRefs 1 = 2 ∧
    (GenericCacheEntry.dropRefs 1).1 = 0 ∧
    (GenericCacheEntry.dropRefs 1).2 = false ∧
    (GenericCacheEntry.dropRefs 0).2 = true ∧
    (GenericCacheEntry.dropRefs 0).1 = USIZE_MOD - 1 := by
  refine ⟨?_, ?_, rfl, rfl, ?_⟩ <;> decide

/-- The flag bits of `Flags` in `foyer-memory-v2/src/record.rs`, identical to
`RecordFlags` in `foyer-memory-v3/src/record.rs`. -/
def FLAG_IN_INDEXER : Nat := 1

/-- `IN_EVICTION = 0b10`. -/
def FLAG_IN_EVICTION : Nat := 2

/-- `DEPOSIT = 0b100`. -/
def FLAG_DEPOSIT : Nat := 4

/-- `Record::set_flags` (v2 and v3 `record.rs`): `fetch_or(bits)` to set,
`fetch_and(!bits)` to clear.  Returns the new flags word. -/
def Record.set_flags (word mask : Nat) (val : Bool) : Nat :=
  if val then word ||| mask else word &&& ((2 ^ 64 - 1) ^^^ mask)

/-- `Record::get_flags` as written in both v2 and v3 `record.rs`:
`self.flags.fetch_and(flags.bits(), order) != 0`.  `fetch_and` stores
`word AND mask` and returns the OLD word, so the query mutates the flags word
and compares the whole old word against 0.  Returns
(new flags word, returned Bool). -/
def Record.get_flags (word mask : Nat) : Nat × Bool :=
  (word &&& mask, word != 0)

/-- Modelled from the spec: the intended flag query — `is_in_indexer` /
`is_in_eviction` / `is_deposit` return whether the queried bit is currently
set, without modifying the flags word. -/
def Record.get_flags_spec (word mask : Nat) : Bool :=
  word &&& mask != 0

/-- C8: evaluation of `Record::get_flags` at a record whose flags word has
`IN_INDEXER` and `IN_EVICTION` set.  Querying `DEPOSIT` (`is_deposit`) returns
`true` although the `DEPOSIT` bit is clear, and zeroes the whole flags word —
erasing `IN_INDEXER` and `IN_EVICTION` — where the intended query returns
`false` and leaves the word untouched. -/
theorem c8_get_flags_check :
    (Record.get_flags (FLAG_IN_INDEXER ||| FLAG_IN_EVICTION) FLAG_DEPOSIT).2 = true ∧
    Record.get_flags_spec (FLAG_IN_INDEXER ||| FLAG_IN_EVICTION) FLAG_DEPOSIT = false ∧
    (Record.get_flags (FLAG_IN_INDEXER ||| FLAG_IN_EVICTION) FLAG_DEPOSIT).1 = 0 ∧
    Record.set_flags 0 FLAG_IN_INDEXER true = FLAG_IN_INDEXER := by
  refine ⟨rfl, rfl, ?_, ?_⟩ <;> decide

/-- C2 counterexample: in the reachable width-3 engine `c2Before`
(`step + 1 = decay`), one more `acquire` of key 0 triggers the decay halving
and the frequency estimate for key 0's hash drops from 2 to 1. -/
theorem c2_counterexample :
    c2Before.hashOf 0 = 0 ∧ c2Before.step + 1 = c2Before.decay ∧
    c2Before.frequencies.estimate 0 = 2 ∧
    (c2Before.acquire 0).frequencies.estimate 0 = 1 := by
  simp only [c2Before_eq]
  decide

/-- C2 (amended): as long as the increment does not reach the decay threshold
(`step + 1 < decay`), `acquire` never decreases the frequency estimate for the
acquired entry's hash (the counter saturates at `u16::MAX`); when the decay
threshold is reached, every counter is halved, which can lower the estimate. -/
theorem c2_acquire_estimate_monotone (s : Lfu) (id : Nat)
    (hb : s.frequencies.Bounded) (hstep : s.step + 1 < s.decay) :
    s.frequencies.estimate (s.hashOf id) ≤ (s.acquire id).frequencies.estimate (s.hashOf id) := by
  unfold Lfu.acquire
  cases hf : s.find id with
  | none => exact le_refl _
  | some h =>
    have hhash : s.hashOf id = h.hash := by
      unfold Lfu.hashOf
      rw [hf]
    unfold Lfu.update_frequencies
    dsimp only
    rw [if_neg (by omega)]
    rw [hhash, estimate_inc_self]
    have hb' : s.frequencies.estimate h.hash ≤ 65535 :=
      lookupCounter_le_of_bounded _ _ hb
    omega

/-- Witness for C2 at a concrete engine state below the decay threshold. -/
theorem c2_acquire_estimate_monotone_witness :
    (freshEngine 272 (unitHandles 10)).frequencies.estimate
        ((freshEngine 272 (unitHandles 10)).hashOf 3) ≤
      ((freshEngine 272 (unitHandles 10)).acquire 3).frequencies.estimate
        ((freshEngine 272 (unitHandles 10)).hashOf 3) :=
  c2_acquire_estimate_monotone (freshEngine 272 (unitHandles 10)) 3 (by decide) (by decide)

/-! ### Explicit record forms of the engine operations -/

theorem findHandle_of_mem_nodup (l : List (Nat × LfuHandle)) (id : Nat) (h : LfuHandle)
    (hnd : (l.map Prod.fst).Nodup) (hm : (id, h) ∈ l) : findHandle l id = some h := by
  induction l with
  | nil => cases hm
  | cons p rest ih =>
    obtain ⟨k, g⟩ := p
    simp only [List.map_cons, List.nodup_cons] at hnd
    rcases List.mem_cons.mp hm with hm | hm
    · cases hm
      simp [findHandle]
    · have hk : ¬ k = id := by
        intro hcon
        exact hnd.1 (by simpa [hcon] using List.mem_map_of_mem Prod.fst hm)
      simp only [findHandle, if_neg hk]
      exact ih hnd.2 hm

theorem decrease_spec_window (s : Lfu) (h : LfuHandle) (hq : h.queue = Queue.Window) :
    s.decrease_queue_weight h = { s with window_weight := s.window_weight - h.weight } := by
  unfold Lfu.decrease_queue_weight
  rw [hq]

theorem decrease_spec_probation (s : Lfu) (h : LfuHandle) (hq : h.queue = Queue.Probation) :
    s.decrease_queue_weight h = { s with probation_weight := s.probation_weight - h.weight } := by
  unfold Lfu.decrease_queue_weight
  rw [hq]

theorem decrease_spec_protected (s : Lfu) (h : LfuHandle) (hq : h.queue = Queue.Protected) :
    s.decrease_queue_weight h = { s with protected_weight := s.protected_weight - h.weight } := by
  unfold Lfu.decrease_queue_weight
  rw [hq]

/-- Explicit form of one window-overflow demotion step. -/
theorem demote_window_front_spec (s : Lfu) (id : Nat) (rest : List Nat) (h : LfuHandle)
    (hw : s.window = id :: rest) (hf : s.find id = some h) (hq : h.queue = Queue.Window) :
    s.demote_window_front =
      { s with handles := setHandle s.handles id { h with queue := Queue.Probation }
               window := rest
               probation := s.probation ++ [id]
               window_weight := s.window_weight - h.weight
               probation_weight := s.probation_weight + h.weight } := by
  unfold Lfu.demote_window_front
  rw [hw]
  dsimp only
  rw [hf]
  dsimp only
  rw [decrease_spec_window _ _ hq]
  rfl

/-- Explicit form of one protected-overflow demotion step. -/
theorem demote_protected_front_spec (s : Lfu) (id : Nat) (rest : List Nat) (h : LfuHandle)
    (hp : s.protected_ = id :: rest) (hf : s.find id = some h) (hq : h.queue = Queue.Protected) :
    s.demote_protected_front =
      { s with handles := setHandle s.handles id { h with queue := Queue.Probation }
               protected_ := rest
               probation := s.probation ++ [id]
               protected_weight := s.protected_weight - h.weight
               probation_weight := s.probation_weight + h.weight } := by
  unfold Lfu.demote_protected_front
  rw [hp]
  dsimp only
  rw [hf]
  dsimp only
  rw [decrease_spec_protected _ _ hq]
  rfl

/-- Explicit form of the straight-line part of `push`. -/
theorem push_start_spec (s : Lfu) (id : Nat) (h : LfuHandle) (hf : s.find id = some h) :
    s.push_start id =
      Lfu.update_frequencies
        { s with handles := setHandle s.handles id
                   { h with in_eviction := true, queue := Queue.Window }
                 window := s.window ++ [id]
                 window_weight := s.window_weight + h.weight }
        h.hash := by
  unfold Lfu.push_start
  rw [hf]
  rfl

/-- Explicit form of the bookkeeping after `pop` unlinks its victim. -/
theorem pop_finish_spec (s : Lfu) (id : Nat) (h : LfuHandle) (hf : s.find id = some h) :
    s.pop_finish id =
      Lfu.set (s.decrease_queue_weight h) id
        { h with queue := Queue.None, in_eviction := false } := by
  unfold Lfu.pop_finish
  rw [hf]

/-- Explicit form of the `Queue::Window` arm of `release`. -/
theorem release_window_spec (s : Lfu) (id : Nat) (h : LfuHandle)
    (hf : s.find id = some h) (hq : h.queue = Queue.Window) :
    s.release id = { s with window := s.window.erase id ++ [id] } := by
  unfold Lfu.release
  rw [hf]
  dsimp only
  rw [hq]

/-- Explicit form of the `Queue::Protected` arm of `release`. -/
theorem release_protected_spec (s : Lfu) (id : Nat) (h : LfuHandle)
    (hf : s.find id = some h) (hq : h.queue = Queue.Protected) :
    s.release id = { s with protected_ := s.protected_.erase id ++ [id] } := by
  unfold Lfu.release
  rw [hf]
  dsimp only
  rw [hq]

/-- Explicit form of the `Queue::None` arm of `release` (a fresh push). -/
theorem release_none_spec (s : Lfu) (id : Nat) (h : LfuHandle)
    (hf : s.find id = some h) (hq : h.queue = Queue.None) :
    s.release id = s.push id := by
  unfold Lfu.release
  rw [hf]
  dsimp only
  rw [hq]

/-- Explicit form of the `Queue::Probation` (promotion) arm of `release`. -/
theorem release_probation_spec (s : Lfu) (id : Nat) (h : LfuHandle)
    (hf : s.find id = some h) (hq : h.queue = Queue.Probation) :
    s.release id =
      Lfu.protected_overflow
        { s with handles := setHandle s.handles id { h with queue := Queue.Protected }
                 probation := s.probation.erase id
                 protected_ := s.protected_ ++ [id]
                 probation_weight := s.probation_weight - h.weight
                 protected_weight := s.protected_weight + h.weight } := by
  unfold Lfu.release
  rw [hf]
  dsimp only
  rw [hq]
  dsimp only
  rw [decrease_spec_probation _ _ hq]
  rfl

/-- Explicit form of `remove` on a `Queue::Window` entry. -/
theorem remove_window_spec (s : Lfu) (id : Nat) (h : LfuHandle)
    (hf : s.find id = some h) (hq : h.queue = Queue.Window) :
    s.remove id =
      { s with handles := setHandle s.handles id
                 { h with queue := Queue.None, in_eviction := false }
               window := s.window.erase id
               window_weight := s.window_weight - h.weight } := by
  unfold Lfu.remove
  rw [hf]
  dsimp only
  rw [hq]
  dsimp only
  rw [show ({ s with window := s.window.erase id } : Lfu).decrease_queue_weight h =
        { s with window := s.window.erase id,
                 window_weight := s.window_weight - h.weight } from by
    rw [decrease_spec_window _ _ hq]]
  rfl

/-- Explicit form of `remove` on a `Queue::Probation` entry. -/
theorem remove_probation_spec (s : Lfu) (id : Nat) (h : LfuHandle)
    (hf : s.find id = some h) (hq : h.queue = Queue.Probation) :
    s.remove id =
      { s with handles := setHandle s.handles id
                 { h with queue := Queue.None, in_eviction := false }
               probation := s.probation.erase id
               probation_weight := s.probation_weight - h.weight } := by
  unfold Lfu.remove
  rw [hf]
  dsimp only
  rw [hq]
  dsimp only
  rw [show ({ s with probation := s.probation.erase id } : Lfu).decrease_queue_weight h =
        { s with probation := s.probation.erase id,
                 probation_weight := s.probation_weight - h.weight } from by
    rw [decrease_spec_probation _ _ hq]]
  rfl

/-- Explicit form of `remove` on a `Queue::Protected` entry. -/
theorem remove_protected_spec (s : Lfu) (id : Nat) (h : LfuHandle)
    (hf : s.find id = some h) (hq : h.queue = Queue.Protected) :
    s.remove id =
      { s with handles := setHandle s.handles id
                 { h with queue := Queue.None, in_eviction := false }
               protected_ := s.protected_.erase id
               protected_weight := s.protected_weight - h.weight } := by
  unfold Lfu.remove
  rw [hf]
  dsimp only
  rw [hq]
  dsimp only
  rw [show ({ s with protected_ := s.protected_.erase id } : Lfu).decrease_queue_weight h =
        { s with protected_ := s.protected_.erase id,
                 protected_weight := s.protected_weight - h.weight } from by
    rw [decrease_spec_protected _ _ hq]]
  rfl

/-! ### The structural invariant of the engine -/

/-- The structural invariant maintained by the engine: handle keys are unique;
each segment list is duplicate-free; every listed token resolves to a handle;
a handle's `queue` tag says exactly which segment list contains it (hence a
tracked token is in exactly one segment); and each segment's weight counter
equals the sum of the weights of its members. -/
def Lfu.Inv (s : Lfu) : Prop :=
  (s.handles.map Prod.fst).Nodup ∧
  s.window.Nodup ∧ s.probation.Nodup ∧ s.protected_.Nodup ∧
  (∀ id ∈ s.window ++ s.probation ++ s.protected_, (s.find id).isSome = true) ∧
  (∀ q ∈ s.handles,
      (q.2.queue = Queue.Window ↔ q.1 ∈ s.window) ∧
      (q.2.queue = Queue.Probation ↔ q.1 ∈ s.probation) ∧
      (q.2.queue = Queue.Protected ↔ q.1 ∈ s.protected_)) ∧
  s.window_weight = (s.window.map s.wOf).sum ∧
  s.probation_weight = (s.probation.map s.wOf).sum ∧
  s.protected_weight = (s.protected_.map s.wOf).sum

instance (s : Lfu) : Decidable s.Inv := by
  unfold Lfu.Inv
  infer_instance

theorem Lfu.Inv.find_of_mem {s : Lfu} (hinv : s.Inv) {id : Nat}
    (hm : id ∈ s.window ++ s.probation ++ s.protected_) : ∃ h, s.find id = some h := by
  have hs := hinv.2.2.2.2.1 id hm
  cases hfind : s.find id with
  | none => rw [hfind] at hs; cases hs
  | some h => exact ⟨h, rfl⟩

theorem Lfu.Inv.tag_iff {s : Lfu} (hinv : s.Inv) {id : Nat} {h : LfuHandle}
    (hf : s.find id = some h) :
    (h.queue = Queue.Window ↔ id ∈ s.window) ∧
    (h.queue = Queue.Probation ↔ id ∈ s.probation) ∧
    (h.queue = Queue.Protected ↔ id ∈ s.protected_) :=
  hinv.2.2.2.2.2.1 (id, h) (findHandle_mem _ _ _ hf)

/-- A handle-store update that only changes non-weight fields of one existing
handle leaves `wOf` untouched. -/
theorem wOf_eq_of_handles {s t : Lfu} {id : Nat} {h0 h' : LfuHandle}
    (hh : t.handles = setHandle s.handles id h') (hf : s.find id = some h0)
    (hw : h'.weight = h0.weight) : t.wOf = s.wOf := by
  funext k
  unfold Lfu.wOf Lfu.find
  rw [hh]
  by_cases hk : k = id
  · subst hk
    have hf' : findHandle s.handles k = some h0 := hf
    rw [findHandle_setHandle_self _ _ _ _ hf', hf']
    exact hw
  · rw [findHandle_setHandle_ne _ _ _ _ hk]

theorem wOf_find {s : Lfu} {id : Nat} {h : LfuHandle} (hf : s.find id = some h) :
    s.wOf id = h.weight := by
  unfold Lfu.wOf
  rw [hf]

/-- One window-overflow demotion step preserves the invariant. -/
theorem demote_window_front_inv (s : Lfu) (hinv : s.Inv) : (s.demote_window_front).Inv := by
  cases hw : s.window with
  | nil =>
    unfold Lfu.demote_window_front
    rw [hw]
    exact hinv
  | cons id rest =>
    have hidw : id ∈ s.window := by
      rw [hw]
      exact List.mem_cons_self ..
    obtain ⟨h, hf⟩ := hinv.find_of_mem
      (List.mem_append.mpr (Or.inl (List.mem_append.mpr (Or.inl hidw))))
    have htags := hinv.tag_iff hf
    have hq : h.queue = Queue.Window := htags.1.mpr hidw
    obtain ⟨hkeys, hwnd, hpnd, hprnd, hsome, htag, hww, hpw, hprw⟩ := hinv
    rw [demote_window_front_spec s id rest h hw hf hq]
    have hidrest : id ∉ rest := by
      rw [hw] at hwnd
      exact (List.nodup_cons.mp hwnd).1
    have hidp : id ∉ s.probation := fun hc => by
      rw [htags.2.1.mpr hc] at hq
      cases hq
    have hidpr : id ∉ s.protected_ := fun hc => by
      rw [htags.2.2.mpr hc] at hq
      cases hq
    have hwof : ∀ u : Lfu,
        u.handles = setHandle s.handles id { h with queue := Queue.Probation } →
        u.wOf = s.wOf := fun u hu => wOf_eq_of_handles hu hf rfl
    unfold Lfu.Inv
    dsimp only
    refine ⟨?_, ?_, ?_, hprnd, ?_, ?_, ?_, ?_, ?_⟩
    · rw [keys_setHandle]
      exact hkeys
    · rw [hw] at hwnd
      exact (List.nodup_cons.mp hwnd).2
    · rw [List.nodup_append]
      refine ⟨hpnd, List.nodup_singleton id, ?_⟩
      intro a ha hb
      rw [List.mem_singleton.mp hb] at ha
      exact hidp ha
    · intro k hk
      simp only [List.mem_append, List.mem_singleton] at hk
      unfold Lfu.find
      dsimp only
      by_cases hkid : k = id
      · subst hkid
        rw [findHandle_setHandle_self _ _ _ _ hf]
        rfl
      · rw [findHandle_setHandle_ne _ _ _ _ hkid]
        refine hsome k (List.mem_append.mpr ?_)
        rcases hk with (hk | hk | hk) | hk
        · exact Or.inl (List.mem_append.mpr (Or.inl (by rw [hw]; exact List.mem_cons_of_mem _ hk)))
        · exact Or.inl (List.mem_append.mpr (Or.inr hk))
        · exact absurd hk hkid
        · exact Or.inr hk
    · intro q hqmem
      rcases mem_setHandle s.handles id h _ q hkeys hf hqmem with ⟨hqold, hqne⟩ | hqeq
      · have old := htag q hqold
        have e1 : q.1 ∈ rest ↔ q.1 ∈ s.window := by
          rw [hw]
          simp [hqne]
        have e2 : q.1 ∈ s.probation ++ [id] ↔ q.1 ∈ s.probation := by
          simp [hqne]
        exact ⟨old.1.trans e1.symm, old.2.1.trans e2.symm, old.2.2⟩
      · rw [hqeq]
        dsimp only
        refine ⟨⟨(fun hcon => nomatch hcon), fun hcon => absurd hcon hidrest⟩, ?_, ?_⟩
        · exact iff_of_true rfl (List.mem_append.mpr (Or.inr (List.mem_singleton.mpr rfl)))
        · exact ⟨(fun hcon => nomatch hcon), fun hcon => absurd hcon hidpr⟩
    · rw [hwof _ rfl]
      rw [hw, List.map_cons, List.sum_cons, wOf_find hf] at hww
      omega
    · rw [hwof _ rfl]
      simp only [List.map_append, List.sum_append, List.map_cons, List.map_nil,
        List.sum_cons, List.sum_nil, wOf_find hf]
      omega
    · rw [hwof _ rfl]
      exact hprw

/-- One protected-overflow demotion step preserves the invariant. -/
theorem demote_protected_front_inv (s : Lfu) (hinv : s.Inv) : (s.demote_protected_front).Inv := by
  cases hp : s.protected_ with
  | nil =>
    unfold Lfu.demote_protected_front
    rw [hp]
    exact hinv
  | cons id rest =>
    have hidpr : id ∈ s.protected_ := by
      rw [hp]
      exact List.mem_cons_self ..
    obtain ⟨h, hf⟩ := hinv.find_of_mem (List.mem_append.mpr (Or.inr hidpr))
    have htags := hinv.tag_iff hf
    have hq : h.queue = Queue.Protected := htags.2.2.mpr hidpr
    obtain ⟨hkeys, hwnd, hpnd, hprnd, hsome, htag, hww, hpw, hprw⟩ := hinv
    rw [demote_protected_front_spec s id rest h hp hf hq]
    have hidrest : id ∉ rest := by
      rw [hp] at hprnd
      exact (List.nodup_cons.mp hprnd).1
    have hidp : id ∉ s.probation := fun hc => by
      rw [htags.2.1.mpr hc] at hq
      cases hq
    have hidw : id ∉ s.window := fun hc => by
      rw [htags.1.mpr hc] at hq
      cases hq
    have hwof : ∀ u : Lfu,
        u.handles = setHandle s.handles id { h with queue := Queue.Probation } →
        u.wOf = s.wOf := fun u hu => wOf_eq_of_handles hu hf rfl
    unfold Lfu.Inv
    dsimp only
    refine ⟨?_, hwnd, ?_, ?_, ?_, ?_, ?_, ?_, ?_⟩
    · rw [keys_setHandle]
      exact hkeys
    · rw [List.nodup_append]
      refine ⟨hpnd, List.nodup_singleton id, ?_⟩
      intro a ha hb
      rw [List.mem_singleton.mp hb] at ha
      exact hidp ha
    · rw [hp] at hprnd
      exact (List.nodup_cons.mp hprnd).2
    · intro k hk
      simp only [List.mem_append, List.mem_singleton] at hk
      unfold Lfu.find
      dsimp only
      by_cases hkid : k = id
      · subst hkid
        rw [findHandle_setHandle_self _ _ _ _ hf]
        rfl
      · rw [findHandle_setHandle_ne _ _ _ _ hkid]
        refine hsome k (List.mem_append.mpr ?_)
        rcases hk with (hk | hk | hk) | hk
        · exact Or.inl (List.mem_append.mpr (Or.inl hk))
        · exact Or.inl (List.mem_append.mpr (Or.inr hk))
        · exact absurd hk hkid
        · exact Or.inr (by rw [hp]; exact List.mem_cons_of_mem _ hk)
    · intro q hqmem
      rcases mem_setHandle s.handles id h _ q hkeys hf hqmem with ⟨hqold, hqne⟩ | hqeq
      · have old := htag q hqold
        have e1 : q.1 ∈ rest ↔ q.1 ∈ s.protected_ := by
          rw [hp]
          simp [hqne]
        have e2 : q.1 ∈ s.probation ++ [id] ↔ q.1 ∈ s.probation := by
          simp [hqne]
        exact ⟨old.1, old.2.1.trans e2.symm, old.2.2.trans e1.symm⟩
      · rw [hqeq]
        dsimp only
        refine ⟨⟨(fun hcon => nomatch hcon), fun hcon => absurd hcon hidw⟩, ?_, ?_⟩
        · exact iff_of_true rfl (List.mem_append.mpr (Or.inr (List.mem_singleton.mpr rfl)))
        · exact ⟨(fun hcon => nomatch hcon), fun hcon => absurd hcon hidrest⟩
    · rw [hwof _ rfl]
      exact hww
    · rw [hwof _ rfl]
      simp only [List.map_append, List.sum_append, List.map_cons, List.map_nil,
        List.sum_cons, List.sum_nil, wOf_find hf]
      omega
    · rw [hwof _ rfl]
      rw [hp, List.map_cons, List.sum_cons, wOf_find hf] at hprw
      omega

/-- The window overflow loop preserves the invariant. -/
theorem window_overflow_go_inv (fuel : Nat) (s : Lfu) (hinv : s.Inv) :
    (Lfu.window_overflow_go fuel s).Inv := by
  induction fuel generalizing s with
  | zero => exact hinv
  | succ fuel ih =>
    unfold Lfu.window_overflow_go
    split
    · exact hinv
    · exact ih _ (demote_window_front_inv s hinv)

/-- The protected overflow loop preserves the invariant. -/
theorem protected_overflow_go_inv (fuel : Nat) (s : Lfu) (hinv : s.Inv) :
    (Lfu.protected_overflow_go fuel s).Inv := by
  induction fuel generalizing s with
  | zero => exact hinv
  | succ fuel ih =>
    unfold Lfu.protected_overflow_go
    split
    · exact hinv
    · exact ih _ (demote_protected_front_inv s hinv)

/-- Frequency-sketch maintenance does not touch the structural state. -/
theorem update_frequencies_wOf_fn (s : Lfu) (x : Nat) :
    (s.update_frequencies x).wOf = s.wOf :=
  funext (update_frequencies_wOf s x)

theorem update_frequencies_inv (t : Lfu) (x : Nat) (hinv : t.Inv) :
    (t.update_frequencies x).Inv := by
  unfold Lfu.Inv at hinv ⊢
  simpa [update_frequencies_wOf_fn] using hinv

/-- The straight-line part of `push` preserves the invariant when the pushed
token is untracked. -/
theorem push_start_inv (s : Lfu) (id : Nat) (h : LfuHandle) (hinv : s.Inv)
    (hf : s.find id = some h) (hq : h.queue = Queue.None) : (s.push_start id).Inv := by
  rw [push_start_spec s id h hf]
  apply update_frequencies_inv
  have htags := hinv.tag_iff hf
  have hidw : id ∉ s.window := fun hc => by
    rw [htags.1.mpr hc] at hq
    cases hq
  have hidp : id ∉ s.probation := fun hc => by
    rw [htags.2.1.mpr hc] at hq
    cases hq
  have hidpr : id ∉ s.protected_ := fun hc => by
    rw [htags.2.2.mpr hc] at hq
    cases hq
  obtain ⟨hkeys, hwnd, hpnd, hprnd, hsome, htag, hww, hpw, hprw⟩ := hinv
  have hwof : ∀ u : Lfu,
      u.handles = setHandle s.handles id { h with in_eviction := true, queue := Queue.Window } →
      u.wOf = s.wOf := fun u hu => wOf_eq_of_handles hu hf rfl
  unfold Lfu.Inv
  dsimp only
  refine ⟨?_, ?_, hpnd, hprnd, ?_, ?_, ?_, ?_, ?_⟩
  · rw [keys_setHandle]
    exact hkeys
  · rw [List.nodup_append]
    refine ⟨hwnd, List.nodup_singleton id, ?_⟩
    intro a ha hb
    rw [List.mem_singleton.mp hb] at ha
    exact hidw ha
  · intro k hk
    simp only [List.mem_append, List.mem_singleton] at hk
    unfold Lfu.find
    dsimp only
    by_cases hkid : k = id
    · subst hkid
      rw [findHandle_setHandle_self _ _ _ _ hf]
      rfl
    · rw [findHandle_setHandle_ne _ _ _ _ hkid]
      refine hsome k (List.mem_append.mpr ?_)
      rcases hk with ((hk | hk) | hk) | hk
      · exact Or.inl (List.mem_append.mpr (Or.inl hk))
      · exact absurd hk hkid
      · exact Or.inl (List.mem_append.mpr (Or.inr hk))
      · exact Or.inr hk
  · intro q hqmem
    rcases mem_setHandle s.handles id h _ q hkeys hf hqmem with ⟨hqold, hqne⟩ | hqeq
    · have old := htag q hqold
      have e1 : q.1 ∈ s.window ++ [id] ↔ q.1 ∈ s.window := by
        simp [hqne]
      exact ⟨old.1.trans e1.symm, old.2.1, old.2.2⟩
    · rw [hqeq]
      dsimp only
      refine ⟨?_, ?_, ?_⟩
      · exact iff_of_true rfl (List.mem_append.mpr (Or.inr (List.mem_singleton.mpr rfl)))
      · exact ⟨(fun hcon => nomatch hcon), fun hcon => absurd hcon hidp⟩
      · exact ⟨(fun hcon => nomatch hcon), fun hcon => absurd hcon hidpr⟩
  · rw [hwof _ rfl]
    simp only [List.map_append, List.sum_append, List.map_cons, List.map_nil,
      List.sum_cons, List.sum_nil, wOf_find hf]
    omega
  · rw [hwof _ rfl]
    exact hpw
  · rw [hwof _ rfl]
    exact hprw

/-- `push` on an untracked token preserves the invariant. -/
theorem push_inv (s : Lfu) (id : Nat) (h : LfuHandle) (hinv : s.Inv)
    (hf : s.find id = some h) (hq : h.queue = Queue.None) : (s.push id).Inv :=
  window_overflow_go_inv _ _ (push_start_inv s id h hinv hf hq)

/-- `remove` on a tracked token preserves the invariant. -/
theorem remove_inv (s : Lfu) (id : Nat) (h : LfuHandle) (hinv : s.Inv)
    (hf : s.find id = some h) (hq : h.queue ≠ Queue.None) : (s.remove id).Inv := by
  have htags := hinv.tag_iff hf
  have hwof : ∀ u : Lfu,
      u.handles = setHandle s.handles id { h with queue := Queue.None, in_eviction := false } →
      u.wOf = s.wOf := fun u hu => wOf_eq_of_handles hu hf rfl
  obtain ⟨hkeys, hwnd, hpnd, hprnd, hsome, htag, hww, hpw, hprw⟩ := hinv
  cases hqq : h.queue with
  | None => exact absurd hqq hq
  | Window =>
    have hidw : id ∈ s.window := htags.1.mp hqq
    have hidp : id ∉ s.probation := fun hc => by
      have hcc := htags.2.1.mpr hc
      rw [hqq] at hcc
      cases hcc
    have hidpr : id ∉ s.protected_ := fun hc => by
      have hcc := htags.2.2.mpr hc
      rw [hqq] at hcc
      cases hcc
    rw [remove_window_spec s id h hf hqq]
    unfold Lfu.Inv
    dsimp only
    refine ⟨?_, ?_, hpnd, hprnd, ?_, ?_, ?_, ?_, ?_⟩
    · rw [keys_setHandle]
      exact hkeys
    · exact hwnd.erase id
    · intro k hk
      simp only [List.mem_append] at hk
      unfold Lfu.find
      dsimp only
      by_cases hkid : k = id
      · subst hkid
        rw [findHandle_setHandle_self _ _ _ _ hf]
        rfl
      · rw [findHandle_setHandle_ne _ _ _ _ hkid]
        refine hsome k (List.mem_append.mpr ?_)
        rcases hk with (hk | hk) | hk
        · exact Or.inl (List.mem_append.mpr (Or.inl (List.mem_of_mem_erase hk)))
        · exact Or.inl (List.mem_append.mpr (Or.inr hk))
        · exact Or.inr hk
    · intro q hqmem
      rcases mem_setHandle s.handles id h _ q hkeys hf hqmem with ⟨hqold, hqne⟩ | hqeq
      · have old := htag q hqold
        have e1 : q.1 ∈ s.window.erase id ↔ q.1 ∈ s.window := List.mem_erase_of_ne hqne
        exact ⟨old.1.trans e1.symm, old.2.1, old.2.2⟩
      · rw [hqeq]
        dsimp only
        refine ⟨⟨(fun hcon => nomatch hcon), ?_⟩,
          ⟨(fun hcon => nomatch hcon), fun hcon => absurd hcon hidp⟩,
          ⟨(fun hcon => nomatch hcon), fun hcon => absurd hcon hidpr⟩⟩
        intro hcon
        exact absurd (List.mem_of_mem_erase hcon) (fun _ => by
          have := (hwnd.mem_erase_iff).mp hcon
          exact this.1 rfl)
    · rw [hwof _ rfl]
      have hperm : List.Perm s.window (id :: s.window.erase id) := List.perm_cons_erase hidw
      have hsum := (hperm.map s.wOf).sum_eq
      rw [List.map_cons, List.sum_cons, wOf_find hf] at hsum
      rw [hww, hsum]
      omega
    · rw [hwof _ rfl]
      exact hpw
    · rw [hwof _ rfl]
      exact hprw
  | Probation =>
    have hidp : id ∈ s.probation := htags.2.1.mp hqq
    have hidw : id ∉ s.window := fun hc => by
      have hcc := htags.1.mpr hc
      rw [hqq] at hcc
      cases hcc
    have hidpr : id ∉ s.protected_ := fun hc => by
      have hcc := htags.2.2.mpr hc
      rw [hqq] at hcc
      cases hcc
    rw [remove_probation_spec s id h hf hqq]
    unfold Lfu.Inv
    dsimp only
    refine ⟨?_, hwnd, ?_, hprnd, ?_, ?_, ?_, ?_, ?_⟩
    · rw [keys_setHandle]
      exact hkeys
    · exact hpnd.erase id
    · intro k hk
      simp only [List.mem_append] at hk
      unfold Lfu.find
      dsimp only
      by_cases hkid : k = id
      · subst hkid
        rw [findHandle_setHandle_self _ _ _ _ hf]
        rfl
      · rw [findHandle_setHandle_ne _ _ _ _ hkid]
        refine hsome k (List.mem_append.mpr ?_)
        rcases hk with (hk | hk) | hk
        · exact Or.inl (List.mem_append.mpr (Or.inl hk))
        · exact Or.inl (List.mem_append.mpr (Or.inr (List.mem_of_mem_erase hk)))
        · exact Or.inr hk
    · intro q hqmem
      rcases mem_setHandle s.handles id h _ q hkeys hf hqmem with ⟨hqold, hqne⟩ | hqeq
      · have old := htag q hqold
        have e1 : q.1 ∈ s.probation.erase id ↔ q.1 ∈ s.probation := List.mem_erase_of_ne hqne
        exact ⟨old.1, old.2.1.trans e1.symm, old.2.2⟩
      · rw [hqeq]
        dsimp only
        refine ⟨⟨(fun hcon => nomatch hcon), fun hcon => absurd hcon hidw⟩,
          ⟨(fun hcon => nomatch hcon), ?_⟩,
          ⟨(fun hcon => nomatch hcon), fun hcon => absurd hcon hidpr⟩⟩
        intro hcon
        have := (hpnd.mem_erase_iff).mp hcon
        exact absurd rfl this.1
    · rw [hwof _ rfl]
      exact hww
    · rw [hwof _ rfl]
      have hperm : List.Perm s.probation (id :: s.probation.erase id) := List.perm_cons_erase hidp
      have hsum := (hperm.map s.wOf).sum_eq
      rw [List.map_cons, List.sum_cons, wOf_find hf] at hsum
      rw [hpw, hsum]
      omega
    · rw [hwof _ rfl]
      exact hprw
  | Protected =>
    have hidpr : id ∈ s.protected_ := htags.2.2.mp hqq
    have hidw : id ∉ s.window := fun hc => by
      have hcc := htags.1.mpr hc
      rw [hqq] at hcc
      cases hcc
    have hidp : id ∉ s.probation := fun hc => by
      have hcc := htags.2.1.mpr hc
      rw [hqq] at hcc
      cases hcc
    rw [remove_protected_spec s id h hf hqq]
    unfold Lfu.Inv
    dsimp only
    refine ⟨?_, hwnd, hpnd, ?_, ?_, ?_, ?_, ?_, ?_⟩
    · rw [keys_setHandle]
      exact hkeys
    · exact hprnd.erase id
    · intro k hk
      simp only [List.mem_append] at hk
      unfold Lfu.find
      dsimp only
      by_cases hkid : k = id
      · subst hkid
        rw [findHandle_setHandle_self _ _ _ _ hf]
        rfl
      · rw [findHandle_setHandle_ne _ _ _ _ hkid]
        refine hsome k (List.mem_append.mpr ?_)
        rcases hk with (hk | hk) | hk
        · exact Or.inl (List.mem_append.mpr (Or.inl hk))
        · exact Or.inl (List.mem_append.mpr (Or.inr hk))
        · exact Or.inr (List.mem_of_mem_erase hk)
    · intro q hqmem
      rcases mem_setHandle s.handles id h _ q hkeys hf hqmem with ⟨hqold, hqne⟩ | hqeq
      · have old := htag q hqold
        have e1 : q.1 ∈ s.protected_.erase id ↔ q.1 ∈ s.protected_ := List.mem_erase_of_ne hqne
        exact ⟨old.1, old.2.1, old.2.2.trans e1.symm⟩
      · rw [hqeq]
        dsimp only
        refine ⟨⟨(fun hcon => nomatch hcon), fun hcon => absurd hcon hidw⟩,
          ⟨(fun hcon => nomatch hcon), fun hcon => absurd hcon hidp⟩,
          ⟨(fun hcon => nomatch hcon), ?_⟩⟩
        intro hcon
        have := (hprnd.mem_erase_iff).mp hcon
        exact absurd rfl this.1
    · rw [hwof _ rfl]
      exact hww
    · rw [hwof _ rfl]
      exact hpw
    · rw [hwof _ rfl]
      have hperm : List.Perm s.protected_ (id :: s.protected_.erase id) := List.perm_cons_erase hidpr
      have hsum := (hperm.map s.wOf).sum_eq
      rw [List.map_cons, List.sum_cons, wOf_find hf] at hsum
      rw [hprw, hsum]
      omega

/-- Popping the `window` front is the same state change as `remove` on it. -/
theorem pop_front_window_eq_remove (s : Lfu) (w : Nat) (wrest : List Nat) (h : LfuHandle)
    (hw : s.window = w :: wrest) (hf : s.find w = some h) (hq : h.queue = Queue.Window) :
    ({ s with window := wrest } : Lfu).pop_finish w = s.remove w := by
  have hf' : ({ s with window := wrest } : Lfu).find w = some h := hf
  rw [pop_finish_spec _ _ _ hf', decrease_spec_window _ _ hq, remove_window_spec s w h hf hq]
  rw [hw, List.erase_cons_head]
  rfl

/-- Popping the `probation` front is the same state change as `remove` on it. -/
theorem pop_front_probation_eq_remove (s : Lfu) (p : Nat) (prest : List Nat) (h : LfuHandle)
    (hp : s.probation = p :: prest) (hf : s.find p = some h) (hq : h.queue = Queue.Probation) :
    ({ s with probation := prest } : Lfu).pop_finish p = s.remove p := by
  have hf' : ({ s with probation := prest } : Lfu).find p = some h := hf
  rw [pop_finish_spec _ _ _ hf', decrease_spec_probation _ _ hq, remove_probation_spec s p h hf hq]
  rw [hp, List.erase_cons_head]
  rfl

/-- Popping the `protected` front is the same state change as `remove` on it. -/
theorem pop_front_protected_eq_remove (s : Lfu) (q : Nat) (qrest : List Nat) (h : LfuHandle)
    (hpr : s.protected_ = q :: qrest) (hf : s.find q = some h) (hq : h.queue = Queue.Protected) :
    ({ s with protected_ := qrest } : Lfu).pop_finish q = s.remove q := by
  have hf' : ({ s with protected_ := qrest } : Lfu).find q = some h := hf
  rw [pop_finish_spec _ _ _ hf', decrease_spec_protected _ _ hq, remove_protected_spec s q h hf hq]
  rw [hpr, List.erase_cons_head]
  rfl

/-- Under the invariant, a successful `pop` evicts a tracked token and its
resulting state is exactly the state of `remove` on that token. -/
theorem pop_eq_remove (s : Lfu) (hinv : s.Inv) (id : Nat) (s' : Lfu)
    (hpop : s.pop = some (id, s')) :
    ∃ h, s.find id = some h ∧ h.queue ≠ Queue.None ∧ s' = s.remove id := by
  unfold Lfu.pop at hpop
  cases hw : s.window with
  | nil =>
    cases hp : s.probation with
    | nil =>
      rw [hw, hp] at hpop
      dsimp only at hpop
      cases hpr : s.protected_ with
      | nil =>
        rw [hpr] at hpop
        cases hpop
      | cons q qrest =>
        rw [hpr] at hpop
        simp only [Option.some.injEq, Prod.mk.injEq] at hpop
        obtain ⟨rfl, rfl⟩ := hpop
        have hidm : q ∈ s.protected_ := by
          rw [hpr]
          exact List.mem_cons_self ..
        obtain ⟨h, hf⟩ := hinv.find_of_mem (List.mem_append.mpr (Or.inr hidm))
        have hq : h.queue = Queue.Protected := (hinv.tag_iff hf).2.2.mpr hidm
        refine ⟨h, hf, by rw [hq]; decide, ?_⟩
        nth_rewrite 2 [← hp]
        rw [← hw]
        exact pop_front_protected_eq_remove s q qrest h hpr hf hq
    | cons p prest =>
      rw [hw, hp] at hpop
      simp only [Option.some.injEq, Prod.mk.injEq] at hpop
      obtain ⟨rfl, rfl⟩ := hpop
      have hidm : p ∈ s.probation := by
        rw [hp]
        exact List.mem_cons_self ..
      obtain ⟨h, hf⟩ := hinv.find_of_mem
        (List.mem_append.mpr (Or.inl (List.mem_append.mpr (Or.inr hidm))))
      have hq : h.queue = Queue.Probation := (hinv.tag_iff hf).2.1.mpr hidm
      refine ⟨h, hf, by rw [hq]; decide, ?_⟩
      rw [← hw]
      exact pop_front_probation_eq_remove s p prest h hp hf hq
  | cons w wrest =>
    cases hp : s.probation with
    | nil =>
      rw [hw, hp] at hpop
      simp only [Option.some.injEq, Prod.mk.injEq] at hpop
      obtain ⟨rfl, rfl⟩ := hpop
      have hidm : w ∈ s.window := by
        rw [hw]
        exact List.mem_cons_self ..
      obtain ⟨h, hf⟩ := hinv.find_of_mem
        (List.mem_append.mpr (Or.inl (List.mem_append.mpr (Or.inl hidm))))
      have hq : h.queue = Queue.Window := (hinv.tag_iff hf).1.mpr hidm
      refine ⟨h, hf, by rw [hq]; decide, ?_⟩
      rw [← hp]
      exact pop_front_window_eq_remove s w wrest h hw hf hq
    | cons p prest =>
      rw [hw, hp] at hpop
      dsimp only at hpop
      by_cases hc : s.frequencies.estimate (s.hashOf w) < s.frequencies.estimate (s.hashOf p)
      · simp only [if_pos hc, Option.some.injEq, Prod.mk.injEq] at hpop
        obtain ⟨rfl, rfl⟩ := hpop
        have hidm : w ∈ s.window := by
          rw [hw]
          exact List.mem_cons_self ..
        obtain ⟨h, hf⟩ := hinv.find_of_mem
          (List.mem_append.mpr (Or.inl (List.mem_append.mpr (Or.inl hidm))))
        have hq : h.queue = Queue.Window := (hinv.tag_iff hf).1.mpr hidm
        refine ⟨h, hf, by rw [hq]; decide, ?_⟩
        rw [← hp]
        exact pop_front_window_eq_remove s w wrest h hw hf hq
      · simp only [if_neg hc, Option.some.injEq, Prod.mk.injEq] at hpop
        obtain ⟨rfl, rfl⟩ := hpop
        have hidm : p ∈ s.probation := by
          rw [hp]
          exact List.mem_cons_self ..
        obtain ⟨h, hf⟩ := hinv.find_of_mem
          (List.mem_append.mpr (Or.inl (List.mem_append.mpr (Or.inr hidm))))
        have hq : h.queue = Queue.Probation := (hinv.tag_iff hf).2.1.mpr hidm
        refine ⟨h, hf, by rw [hq]; decide, ?_⟩
        rw [← hw]
        exact pop_front_probation_eq_remove s p prest h hp hf hq

/-- `pop` preserves the invariant. -/
theorem pop_inv (s : Lfu) (hinv : s.Inv) (id : Nat) (s' : Lfu)
    (hpop : s.pop = some (id, s')) : s'.Inv := by
  obtain ⟨h, hf, hq, heq⟩ := pop_eq_remove s hinv id s' hpop
  rw [heq]
  exact remove_inv s id h hinv hf hq

/-- `acquire` preserves the invariant (it only touches the sketch). -/
theorem acquire_inv (s : Lfu) (id : Nat) (hinv : s.Inv) : (s.acquire id).Inv := by
  unfold Lfu.acquire
  cases hf : s.find id with
  | none => exact hinv
  | some h => exact update_frequencies_inv _ _ hinv

/-- A state that keeps the same handle store has the same `wOf`. -/
theorem wOf_eq_of_handles_eq {s t : Lfu} (hh : t.handles = s.handles) : t.wOf = s.wOf := by
  funext k
  unfold Lfu.wOf Lfu.find
  rw [hh]

/-- The state after the promotion step of the `Queue::Probation` arm of
`release` (before the protected overflow loop) satisfies the invariant. -/
theorem promote_state_inv (s : Lfu) (id : Nat) (h : LfuHandle) (hinv : s.Inv)
    (hf : s.find id = some h) (hqq : h.queue = Queue.Probation) :
    ({ s with handles := setHandle s.handles id { h with queue := Queue.Protected }
              probation := s.probation.erase id
              protected_ := s.protected_ ++ [id]
              probation_weight := s.probation_weight - h.weight
              protected_weight := s.protected_weight + h.weight } : Lfu).Inv := by
  have htags := hinv.tag_iff hf
  have hidp : id ∈ s.probation := htags.2.1.mp hqq
  have hidw : id ∉ s.window := fun hc => by
    have hcc := htags.1.mpr hc
    rw [hqq] at hcc
    cases hcc
  have hidpr : id ∉ s.protected_ := fun hc => by
    have hcc := htags.2.2.mpr hc
    rw [hqq] at hcc
    cases hcc
  have hwof : ∀ u : Lfu,
      u.handles = setHandle s.handles id { h with queue := Queue.Protected } →
      u.wOf = s.wOf := fun u hu => wOf_eq_of_handles hu hf rfl
  obtain ⟨hkeys, hwnd, hpnd, hprnd, hsome, htag, hww, hpw, hprw⟩ := hinv
  unfold Lfu.Inv
  dsimp only
  have hiderase : id ∉ s.probation.erase id := fun hc => (hpnd.mem_erase_iff.mp hc).1 rfl
  refine ⟨?_, hwnd, ?_, ?_, ?_, ?_, ?_, ?_, ?_⟩
  · rw [keys_setHandle]
    exact hkeys
  · exact hpnd.erase id
  · rw [List.nodup_append]
    refine ⟨hprnd, List.nodup_singleton id, ?_⟩
    intro a ha hb
    rw [List.mem_singleton.mp hb] at ha
    exact hidpr ha
  · intro k hk
    simp only [List.mem_append, List.mem_singleton] at hk
    unfold Lfu.find
    dsimp only
    by_cases hkid : k = id
    · subst hkid
      rw [findHandle_setHandle_self _ _ _ _ hf]
      rfl
    · rw [findHandle_setHandle_ne _ _ _ _ hkid]
      refine hsome k (List.mem_append.mpr ?_)
      rcases hk with (hk | hk) | hk | hk
      · exact Or.inl (List.mem_append.mpr (Or.inl hk))
      · exact Or.inl (List.mem_append.mpr (Or.inr (List.mem_of_mem_erase hk)))
      · exact Or.inr hk
      · exact absurd hk hkid
  · intro q hqmem
    rcases mem_setHandle s.handles id h _ q hkeys hf hqmem with ⟨hqold, hqne⟩ | hqeq
    · have old := htag q hqold
      have e1 : q.1 ∈ s.probation.erase id ↔ q.1 ∈ s.probation := List.mem_erase_of_ne hqne
      have e2 : q.1 ∈ s.protected_ ++ [id] ↔ q.1 ∈ s.protected_ := by
        simp [hqne]
      exact ⟨old.1, old.2.1.trans e1.symm, old.2.2.trans e2.symm⟩
    · rw [hqeq]
      dsimp only
      refine ⟨⟨(fun hcon => nomatch hcon), fun hcon => absurd hcon hidw⟩,
        ⟨(fun hcon => nomatch hcon), fun hcon => absurd hcon hiderase⟩, ?_⟩
      exact iff_of_true rfl (List.mem_append.mpr (Or.inr (List.mem_singleton.mpr rfl)))
  · rw [hwof _ rfl]
    exact hww
  · rw [hwof _ rfl]
    have hperm : List.Perm s.probation (id :: s.probation.erase id) :=
      List.perm_cons_erase hidp
    have hsum := (hperm.map s.wOf).sum_eq
    rw [List.map_cons, List.sum_cons, wOf_find hf] at hsum
    rw [hpw, hsum]
    omega
  · rw [hwof _ rfl]
    simp only [List.map_append, List.sum_append, List.map_cons, List.map_nil,
      List.sum_cons, List.sum_nil, wOf_find hf]
    omega

/-- `release` preserves the invariant. -/
theorem release_inv (s : Lfu) (id : Nat) (h : LfuHandle) (hinv : s.Inv)
    (hf : s.find id = some h) : (s.release id).Inv := by
  have htags := hinv.tag_iff hf
  cases hqq : h.queue with
  | None =>
    rw [release_none_spec s id h hf hqq]
    exact push_inv s id h hinv hf hqq
  | Window =>
    have hidw : id ∈ s.window := htags.1.mp hqq
    obtain ⟨hkeys, hwnd, hpnd, hprnd, hsome, htag, hww, hpw, hprw⟩ := hinv
    rw [release_window_spec s id h hf hqq]
    unfold Lfu.Inv
    dsimp only
    have hiderase : id ∉ s.window.erase id := fun hc => (hwnd.mem_erase_iff.mp hc).1 rfl
    have hperm : List.Perm s.window (s.window.erase id ++ [id]) :=
      (List.perm_cons_erase hidw).trans (List.perm_append_singleton id _).symm
    refine ⟨hkeys, ?_, hpnd, hprnd, ?_, ?_, ?_, ?_, ?_⟩
    · rw [List.nodup_append]
      refine ⟨hwnd.erase id, List.nodup_singleton id, ?_⟩
      intro a ha hb
      rw [List.mem_singleton.mp hb] at ha
      exact hiderase ha
    · intro k hk
      simp only [List.mem_append, List.mem_singleton] at hk
      refine hsome k (List.mem_append.mpr ?_)
      rcases hk with ((hk | hk) | hk) | hk
      · exact Or.inl (List.mem_append.mpr (Or.inl (List.mem_of_mem_erase hk)))
      · exact Or.inl (List.mem_append.mpr (Or.inl (hk ▸ hidw)))
      · exact Or.inl (List.mem_append.mpr (Or.inr hk))
      · exact Or.inr hk
    · intro q hqmem
      have old := htag q hqmem
      have e1 : q.1 ∈ s.window.erase id ++ [id] ↔ q.1 ∈ s.window := by
        by_cases hqid : q.1 = id
        · subst hqid
          exact iff_of_true (List.mem_append.mpr (Or.inr (List.mem_singleton.mpr rfl))) hidw
        · simp only [List.mem_append, List.mem_singleton, hqid, or_false]
          exact List.mem_erase_of_ne hqid
      exact ⟨old.1.trans e1.symm, old.2.1, old.2.2⟩
    · rw [wOf_eq_of_handles_eq rfl, hww]
      exact (hperm.map s.wOf).sum_eq
    · rw [wOf_eq_of_handles_eq rfl]
      exact hpw
    · rw [wOf_eq_of_handles_eq rfl]
      exact hprw
  | Protected =>
    have hidpr : id ∈ s.protected_ := htags.2.2.mp hqq
    obtain ⟨hkeys, hwnd, hpnd, hprnd, hsome, htag, hww, hpw, hprw⟩ := hinv
    rw [release_protected_spec s id h hf hqq]
    unfold Lfu.Inv
    dsimp only
    have hiderase : id ∉ s.protected_.erase id := fun hc => (hprnd.mem_erase_iff.mp hc).1 rfl
    have hperm : List.Perm s.protected_ (s.protected_.erase id ++ [id]) :=
      (List.perm_cons_erase hidpr).trans (List.perm_append_singleton id _).symm
    refine ⟨hkeys, hwnd, hpnd, ?_, ?_, ?_, ?_, ?_, ?_⟩
    · rw [List.nodup_append]
      refine ⟨hprnd.erase id, List.nodup_singleton id, ?_⟩
      intro a ha hb
      rw [List.mem_singleton.mp hb] at ha
      exact hiderase ha
    · intro k hk
      simp only [List.mem_append, List.mem_singleton] at hk
      refine hsome k (List.mem_append.mpr ?_)
      rcases hk with (hk | hk) | hk | hk
      · exact Or.inl (List.mem_append.mpr (Or.inl hk))
      · exact Or.inl (List.mem_append.mpr (Or.inr hk))
      · exact Or.inr (List.mem_of_mem_erase hk)
      · exact Or.inr (hk ▸ hidpr)
    · intro q hqmem
      have old := htag q hqmem
      have e1 : q.1 ∈ s.protected_.erase id ++ [id] ↔ q.1 ∈ s.protected_ := by
        by_cases hqid : q.1 = id
        · subst hqid
          exact iff_of_true (List.mem_append.mpr (Or.inr (List.mem_singleton.mpr rfl))) hidpr
        · simp only [List.mem_append, List.mem_singleton, hqid, or_false]
          exact List.mem_erase_of_ne hqid
      exact ⟨old.1, old.2.1, old.2.2.trans e1.symm⟩
    · rw [wOf_eq_of_handles_eq rfl]
      exact hww
    · rw [wOf_eq_of_handles_eq rfl]
      exact hpw
    · rw [wOf_eq_of_handles_eq rfl, hprw]
      exact (hperm.map s.wOf).sum_eq
  | Probation =>
    rw [release_probation_spec s id h hf hqq]
    exact protected_overflow_go_inv _ _ (promote_state_inv s id h hinv hf hqq)

/-- With enough fuel (one per `protected` member), the protected overflow loop
always ends with `protected_weight` within capacity. -/
theorem protected_overflow_go_weight_le (fuel : Nat) (s : Lfu) (hinv : s.Inv)
    (hfuel : s.protected_.length ≤ fuel) :
    (Lfu.protected_overflow_go fuel s).protected_weight ≤ s.protected_weight_capacity := by
  induction fuel generalizing s with
  | zero =>
    have hpr : s.protected_ = [] := List.eq_nil_of_length_eq_zero (Nat.le_zero.mp hfuel)
    have hsum := hinv.2.2.2.2.2.2.2.2
    rw [hpr, List.map_nil, List.sum_nil] at hsum
    show s.protected_weight ≤ _
    rw [hsum]
    exact Nat.zero_le _
  | succ fuel ih =>
    unfold Lfu.protected_overflow_go
    split
    · assumption
    · rename_i hgt
      cases hpr : s.protected_ with
      | nil =>
        exfalso
        have hsum := hinv.2.2.2.2.2.2.2.2
        rw [hpr, List.map_nil, List.sum_nil] at hsum
        rw [hsum] at hgt
        exact hgt (Nat.zero_le _)
      | cons id rest =>
        have hidm : id ∈ s.protected_ := by
          rw [hpr]
          exact List.mem_cons_self ..
        obtain ⟨h, hf⟩ := hinv.find_of_mem (List.mem_append.mpr (Or.inr hidm))
        have hq : h.queue = Queue.Protected := (hinv.tag_iff hf).2.2.mpr hidm
        have hinv' := demote_protected_front_inv s hinv
        rw [demote_protected_front_spec s id rest h hpr hf hq] at hinv' ⊢
        have hlen : rest.length ≤ fuel := by
          rw [hpr] at hfuel
          simpa using Nat.lt_succ_iff.mp (Nat.lt_of_lt_of_le (Nat.lt_succ_self _) hfuel)
        exact ih _ hinv' hlen

/-- With enough fuel, the protected overflow loop keeps an entry whose weight
is within the protected capacity at the MRU (tail) position. -/
theorem protected_overflow_go_getLast (fuel : Nat) (s : Lfu) (hinv : s.Inv) (e : Nat)
    (hfuel : s.protected_.length ≤ fuel)
    (hlast : s.protected_.getLast? = some e)
    (hwe : s.wOf e ≤ s.protected_weight_capacity) :
    (Lfu.protected_overflow_go fuel s).protected_.getLast? = some e := by
  induction fuel generalizing s with
  | zero =>
    have hpr : s.protected_ = [] := List.eq_nil_of_length_eq_zero (Nat.le_zero.mp hfuel)
    rw [hpr] at hlast
    cases hlast
  | succ fuel ih =>
    unfold Lfu.protected_overflow_go
    split
    · assumption
    · rename_i hgt
      cases hpr : s.protected_ with
      | nil =>
        rw [hpr] at hlast
        cases hlast
      | cons id rest =>
        have hidm : id ∈ s.protected_ := by
          rw [hpr]
          exact List.mem_cons_self ..
        obtain ⟨h, hf⟩ := hinv.find_of_mem (List.mem_append.mpr (Or.inr hidm))
        have hq : h.queue = Queue.Protected := (hinv.tag_iff hf).2.2.mpr hidm
        cases hrest : rest with
        | nil =>
          exfalso
          rw [hpr, hrest] at hlast
          have he : id = e := by
            simpa using hlast
          have hsum := hinv.2.2.2.2.2.2.2.2
          rw [hpr, hrest] at hsum
          simp only [List.map_cons, List.map_nil, List.sum_cons, List.sum_nil] at hsum
          rw [wOf_find hf] at hsum
          rw [← he] at hwe
          rw [wOf_find hf] at hwe
          rw [hsum] at hgt
          omega
        | cons r rrest =>
          have hinv' := demote_protected_front_inv s hinv
          rw [demote_protected_front_spec s id rest h hpr hf hq] at hinv' ⊢
          have hwof : ({ s with
              handles := setHandle s.handles id { h with queue := Queue.Probation },
              protected_ := rest,
              probation := s.probation ++ [id],
              protected_weight := s.protected_weight - h.weight,
              probation_weight := s.probation_weight + h.weight } : Lfu).wOf = s.wOf :=
            wOf_eq_of_handles rfl hf rfl
          refine ih _ hinv' ?_ ?_ ?_
          · dsimp only
            rw [hpr] at hfuel
            simpa using Nat.lt_succ_iff.mp (Nat.lt_of_lt_of_le (Nat.lt_succ_self _) hfuel)
          · dsimp only
            rw [hpr, hrest] at hlast
            rw [List.getLast?_cons_cons] at hlast
            rw [hrest]
            exact hlast
          · rw [hwof]
            exact hwe

/-- C4 counterexample: in the reachable state `c4Before` the weight-10 entry
(key 0) sits in `probation` with protected capacity 6; releasing it promotes
it and the cascade immediately demotes it back, so after `release` it is in
`probation`, not at the `protected` MRU position as claimed (the weight bound
itself holds: `protected_weight = 0 ≤ 6`). -/
theorem c4_counterexample :
    c4Before.find 0 =
      some { hash := 0, weight := 10, queue := Queue.Probation, in_eviction := true } ∧
    c4Before.probation = [0] ∧
    c4Before.protected_weight_capacity = 6 ∧
    (c4Before.release 0).protected_ = [] ∧
    (c4Before.release 0).probation = [0] ∧
    (c4Before.release 0).protected_weight = 0 := by
  simp only [c4Before_eq]
  decide

/-- C4 (amended): releasing a `probation` entry promotes it to the `protected`
MRU position and cascades `protected` LRU entries back to `probation` while
over capacity; after the call `protected_weight ≤ protected_cap` always holds,
and the released entry itself remains at the `protected` MRU position provided
its own weight is within `protected_cap` (otherwise the cascade demotes it back
to `probation`). -/
theorem c4_release_probation_promotion (s : Lfu) (id : Nat) (h : LfuHandle)
    (hinv : s.Inv) (hf : s.find id = some h) (hq : h.queue = Queue.Probation) :
    (s.release id).protected_weight ≤ s.protected_weight_capacity ∧
    (h.weight ≤ s.protected_weight_capacity →
      (s.release id).protected_.getLast? = some id) := by
  rw [release_probation_spec s id h hf hq]
  have htinv := promote_state_inv s id h hinv hf hq
  unfold Lfu.protected_overflow
  constructor
  · exact protected_overflow_go_weight_le _ _ htinv (Nat.le_refl _)
  · intro hwle
    refine protected_overflow_go_getLast _ _ htinv id (Nat.le_refl _) ?_ ?_
    · dsimp only
      exact List.getLast?_concat _
    · have hfind : ({ s with
          handles := setHandle s.handles id { h with queue := Queue.Protected },
          probation := s.probation.erase id,
          protected_ := s.protected_ ++ [id],
          probation_weight := s.probation_weight - h.weight,
          protected_weight := s.protected_weight + h.weight } : Lfu).find id =
            some { h with queue := Queue.Protected } :=
        findHandle_setHandle_self _ _ _ _ hf
      rw [wOf_find hfind]
      exact hwle

/-- Witness for C4 at a concrete reachable state: key 0 (weight 1) is the
probation front after pushing keys 0,1,2; releasing it promotes it to the
protected MRU position with the weight bound intact. -/
theorem c4_release_probation_promotion_witness :
    (([0, 1, 2].foldl Lfu.push (freshEngine 272 (unitHandles 10))).release 0).protected_weight ≤
        ([0, 1, 2].foldl Lfu.push (freshEngine 272 (unitHandles 10))).protected_weight_capacity ∧
    ((1 : Nat) ≤ ([0, 1, 2].foldl Lfu.push (freshEngine 272 (unitHandles 10))).protected_weight_capacity →
      (([0, 1, 2].foldl Lfu.push (freshEngine 272 (unitHandles 10))).release 0).protected_.getLast? =
        some 0) :=
  c4_release_probation_promotion ([0, 1, 2].foldl Lfu.push (freshEngine 272 (unitHandles 10))) 0
    { hash := 0, weight := 1, queue := Queue.Probation, in_eviction := true }
    (by decide) (by decide) rfl

/-- Total weight of all currently tracked tokens (those whose `queue` tag is
not `Queue::None`) in the handle store. -/
def Lfu.trackedWeight (s : Lfu) : Nat :=
  ((s.handles.filter (fun q => q.2.queue != Queue.None)).map (fun q => q.2.weight)).sum

/-- Under the invariant, an untracked handle is in no segment and a tracked
handle is in exactly one segment. -/
theorem Lfu.Inv.membership_cases {s : Lfu} (hinv : s.Inv) {id : Nat} {h : LfuHandle}
    (hf : s.find id = some h) :
    (h.queue = Queue.None → id ∉ s.window ∧ id ∉ s.probation ∧ id ∉ s.protected_) ∧
    (h.queue ≠ Queue.None →
      (id ∈ s.window ∧ id ∉ s.probation ∧ id ∉ s.protected_) ∨
      (id ∉ s.window ∧ id ∈ s.probation ∧ id ∉ s.protected_) ∨
      (id ∉ s.window ∧ id ∉ s.probation ∧ id ∈ s.protected_)) := by
  have htags := hinv.tag_iff hf
  cases hqq : h.queue with
  | None =>
    rw [hqq] at htags
    refine ⟨fun _ => ⟨?_, ?_, ?_⟩, fun hne => absurd rfl hne⟩
    · exact fun hc => nomatch htags.1.mpr hc
    · exact fun hc => nomatch htags.2.1.mpr hc
    · exact fun hc => nomatch htags.2.2.mpr hc
  | Window =>
    rw [hqq] at htags
    refine ⟨(fun hno => nomatch hno), fun _ => Or.inl ⟨htags.1.mp rfl, ?_, ?_⟩⟩
    · exact fun hc => nomatch htags.2.1.mpr hc
    · exact fun hc => nomatch htags.2.2.mpr hc
  | Probation =>
    rw [hqq] at htags
    refine ⟨(fun hno => nomatch hno), fun _ => Or.inr (Or.inl ⟨?_, htags.2.1.mp rfl, ?_⟩)⟩
    · exact fun hc => nomatch htags.1.mpr hc
    · exact fun hc => nomatch htags.2.2.mpr hc
  | Protected =>
    rw [hqq] at htags
    refine ⟨(fun hno => nomatch hno), fun _ => Or.inr (Or.inr ⟨?_, ?_, htags.2.2.mp rfl⟩)⟩
    · exact fun hc => nomatch htags.1.mpr hc
    · exact fun hc => nomatch htags.2.1.mpr hc

/-- Under the invariant, the three segment weight counters sum to the total
weight of all tracked tokens. -/
theorem Lfu.Inv.weight_sum {s : Lfu} (hinv : s.Inv) :
    s.window_weight + s.probation_weight + s.protected_weight = s.trackedWeight := by
  have hkeys : (s.handles.map Prod.fst).Nodup := hinv.1
  have hwnd : s.window.Nodup := hinv.2.1
  have hpnd : s.probation.Nodup := hinv.2.2.1
  have hprnd : s.protected_.Nodup := hinv.2.2.2.1
  have hww := hinv.2.2.2.2.2.2.1
  have hpw := hinv.2.2.2.2.2.2.2.1
  have hprw := hinv.2.2.2.2.2.2.2.2
  have hT : s.window_weight + s.probation_weight + s.protected_weight =
      ((s.window ++ s.probation ++ s.protected_).map s.wOf).sum := by
    rw [hww, hpw, hprw]
    simp only [List.map_append, List.sum_append]
  have hdisj_wp : ∀ a, a ∈ s.window → a ∈ s.probation → False := by
    intro a haw hap
    obtain ⟨h, hf⟩ := hinv.find_of_mem
      (List.mem_append.mpr (Or.inl (List.mem_append.mpr (Or.inl haw))))
    have h1 := (hinv.tag_iff hf).1.mpr haw
    have h2 := (hinv.tag_iff hf).2.1.mpr hap
    rw [h1] at h2
    cases h2
  have hdisj_wpr : ∀ a, a ∈ s.window → a ∈ s.protected_ → False := by
    intro a haw hapr
    obtain ⟨h, hf⟩ := hinv.find_of_mem
      (List.mem_append.mpr (Or.inl (List.mem_append.mpr (Or.inl haw))))
    have h1 := (hinv.tag_iff hf).1.mpr haw
    have h2 := (hinv.tag_iff hf).2.2.mpr hapr
    rw [h1] at h2
    cases h2
  have hdisj_ppr : ∀ a, a ∈ s.probation → a ∈ s.protected_ → False := by
    intro a hap hapr
    obtain ⟨h, hf⟩ := hinv.find_of_mem
      (List.mem_append.mpr (Or.inl (List.mem_append.mpr (Or.inr hap))))
    have h1 := (hinv.tag_iff hf).2.1.mpr hap
    have h2 := (hinv.tag_iff hf).2.2.mpr hapr
    rw [h1] at h2
    cases h2
  have hTnd : (s.window ++ s.probation ++ s.protected_).Nodup := by
    rw [List.nodup_append, List.nodup_append]
    refine ⟨⟨hwnd, hpnd, hdisj_wp⟩, hprnd, ?_⟩
    intro a ha hapr
    rcases List.mem_append.mp ha with haw | hap
    · exact hdisj_wpr a haw hapr
    · exact hdisj_ppr a hap hapr
  have hFk_nd : (((s.handles.filter (fun q => q.2.queue != Queue.None)).map Prod.fst)).Nodup :=
    hkeys.sublist ((List.filter_sublist _).map Prod.fst)
  have hmem : ∀ a, a ∈ (s.handles.filter (fun q => q.2.queue != Queue.None)).map Prod.fst ↔
      a ∈ s.window ++ s.probation ++ s.protected_ := by
    intro a
    constructor
    · intro ha
      obtain ⟨q, hqF, rfl⟩ := List.mem_map.mp ha
      obtain ⟨hqmem, hpred⟩ := List.mem_filter.mp hqF
      have hfq : s.find q.1 = some q.2 :=
        findHandle_of_mem_nodup _ _ _ hkeys (Prod.mk.eta.symm ▸ hqmem)
      have hq_ne : q.2.queue ≠ Queue.None := by simpa using hpred
      have htags := hinv.tag_iff hfq
      cases hqq : q.2.queue with
      | None => exact absurd hqq hq_ne
      | Window =>
        exact List.mem_append.mpr (Or.inl (List.mem_append.mpr (Or.inl (htags.1.mp hqq))))
      | Probation =>
        exact List.mem_append.mpr (Or.inl (List.mem_append.mpr (Or.inr (htags.2.1.mp hqq))))
      | Protected =>
        exact List.mem_append.mpr (Or.inr (htags.2.2.mp hqq))
    · intro ha
      obtain ⟨h, hf⟩ := hinv.find_of_mem ha
      have hqmem := findHandle_mem _ _ _ hf
      have hqueue_ne : h.queue ≠ Queue.None := by
        rcases List.mem_append.mp ha with hab | hapr
        · rcases List.mem_append.mp hab with haw | hap
          · rw [(hinv.tag_iff hf).1.mpr haw]
            decide
          · rw [(hinv.tag_iff hf).2.1.mpr hap]
            decide
        · rw [(hinv.tag_iff hf).2.2.mpr hapr]
          decide
      refine List.mem_map.mpr ⟨(a, h), List.mem_filter.mpr ⟨hqmem, ?_⟩, rfl⟩
      simpa using hqueue_ne
  have hperm : List.Perm ((s.handles.filter (fun q => q.2.queue != Queue.None)).map Prod.fst)
      (s.window ++ s.probation ++ s.protected_) :=
    (List.perm_ext_iff_of_nodup hFk_nd hTnd).mpr hmem
  have h3 : (s.handles.filter (fun q => q.2.queue != Queue.None)).map (fun q => s.wOf q.1) =
      (s.handles.filter (fun q => q.2.queue != Queue.None)).map (fun q => q.2.weight) := by
    refine List.map_congr_left ?_
    intro q hq
    obtain ⟨hqmem, _⟩ := List.mem_filter.mp hq
    have hfq : s.find q.1 = some q.2 :=
      findHandle_of_mem_nodup _ _ _ hkeys (Prod.mk.eta.symm ▸ hqmem)
    exact wOf_find hfq
  calc s.window_weight + s.probation_weight + s.protected_weight
      = ((s.window ++ s.probation ++ s.protected_).map s.wOf).sum := hT
    _ = (((s.handles.filter (fun q => q.2.queue != Queue.None)).map Prod.fst).map s.wOf).sum :=
        ((hperm.map s.wOf).sum_eq).symm
    _ = ((s.handles.filter (fun q => q.2.queue != Queue.None)).map (fun q => s.wOf q.1)).sum := by
        rw [List.map_map]
        rfl
    _ = ((s.handles.filter (fun q => q.2.queue != Queue.None)).map (fun q => q.2.weight)).sum := by
        rw [h3]
    _ = s.trackedWeight := rfl

/-- The operations of the eviction interface, as invoked by the shard. -/
inductive Op where
  | push (id : Nat)
  | pop
  | release (id : Nat)
  | acquire (id : Nat)
  | remove (id : Nat)
deriving DecidableEq, Repr

/-- Execute one interface operation (the popped victim, if any, is simply
dropped from tracking, as the shard's evict loop does). -/
def Lfu.exec (s : Lfu) : Op → Lfu
  | Op.push id => s.push id
  | Op.pop =>
    match s.pop with
    | some (_, s') => s'
    | none => s
  | Op.release id => s.release id
  | Op.acquire id => s.acquire id
  | Op.remove id => s.remove id

/-- The documented preconditions of each operation: `push` requires an
untracked token, `remove` a tracked one, `release` and `acquire` an existing
handle, `pop` nothing. -/
def Lfu.pre (s : Lfu) : Op → Bool
  | Op.push id =>
    match s.find id with
    | some h => h.queue == Queue.None
    | none => false
  | Op.pop => true
  | Op.release id => (s.find id).isSome
  | Op.acquire _ => true
  | Op.remove id =>
    match s.find id with
    | some h => h.queue != Queue.None
    | none => false

/-- Run a sequence of interface operations. -/
def Lfu.run (s : Lfu) : List Op → Lfu
  | [] => s
  | op :: ops => (s.exec op).run ops

/-- Every operation of the sequence satisfies its precondition when reached. -/
def Lfu.validRun (s : Lfu) : List Op → Bool
  | [] => true
  | op :: ops => s.pre op && (s.exec op).validRun ops

/-- Each single operation respecting its precondition preserves the
invariant. -/
theorem exec_inv (s : Lfu) (op : Op) (hinv : s.Inv) (hpre : s.pre op = true) :
    (s.exec op).Inv := by
  cases op with
  | push id =>
    unfold Lfu.pre at hpre
    dsimp only at hpre
    cases hf : s.find id with
    | none =>
      rw [hf] at hpre
      cases hpre
    | some h =>
      rw [hf] at hpre
      exact push_inv s id h hinv hf (by simpa using hpre)
  | pop =>
    unfold Lfu.exec
    cases hpop : s.pop with
    | none => exact hinv
    | some pr =>
      obtain ⟨id, s'⟩ := pr
      exact pop_inv s hinv id s' hpop
  | release id =>
    unfold Lfu.pre at hpre
    dsimp only at hpre
    cases hf : s.find id with
    | none =>
      rw [hf] at hpre
      cases hpre
    | some h => exact release_inv s id h hinv hf
  | acquire id => exact acquire_inv s id hinv
  | remove id =>
    unfold Lfu.pre at hpre
    dsimp only at hpre
    cases hf : s.find id with
    | none =>
      rw [hf] at hpre
      cases hpre
    | some h =>
      rw [hf] at hpre
      exact remove_inv s id h hinv hf (by simpa using hpre)

/-- A valid run preserves the invariant. -/
theorem run_inv (s : Lfu) (ops : List Op) (hinv : s.Inv) (hvalid : s.validRun ops = true) :
    (s.run ops).Inv := by
  induction ops generalizing s with
  | nil => exact hinv
  | cons op ops ih =>
    unfold Lfu.validRun at hvalid
    rw [Bool.and_eq_true] at hvalid
    exact ih _ (exec_inv s op hinv hvalid.1) hvalid.2

/-- A freshly constructed engine over a store of untracked handles with unique
keys satisfies the invariant. -/
theorem new_inv (capacity sketch_width : Nat) (config : LfuConfig)
    (hs : List (Nat × LfuHandle)) (s0 : Lfu)
    (hok : Lfu.new capacity config sketch_width hs = Except.ok s0)
    (hkeys : (hs.map Prod.fst).Nodup)
    (hnone : ∀ q ∈ hs, q.2.queue = Queue.None) : s0.Inv := by
  unfold Lfu.new at hok
  split at hok
  · cases hok
  · split at hok
    · cases hok
    · split at hok
      · cases hok
      · cases hok
        unfold Lfu.Inv
        dsimp only
        refine ⟨hkeys, List.nodup_nil, List.nodup_nil, List.nodup_nil, ?_, ?_, rfl, rfl, rfl⟩
        · intro k hk
          cases hk
        · intro q hq
          rw [hnone q hq]
          exact ⟨⟨(fun hc => nomatch hc), fun hc => nomatch hc⟩,
            ⟨(fun hc => nomatch hc), fun hc => nomatch hc⟩,
            ⟨(fun hc => nomatch hc), fun hc => nomatch hc⟩⟩

/-- C6: starting from a fresh engine over untracked, uniquely keyed handles,
after any sequence of `push`/`pop`/`release`/`acquire`/`remove` operations
respecting the documented preconditions, the invariant holds: every tracked
token (pushed and not since popped or removed, i.e. `queue ≠ None`) is in
exactly one of the three segment lists, untracked tokens are in none, and the
three segment weight counters sum to the total weight of all tracked tokens. -/
theorem c6_round_trip (capacity sketch_width : Nat) (config : LfuConfig)
    (hs : List (Nat × LfuHandle)) (s0 : Lfu) (ops : List Op)
    (hok : Lfu.new capacity config sketch_width hs = Except.ok s0)
    (hkeys : (hs.map Prod.fst).Nodup)
    (hnone : ∀ q ∈ hs, q.2.queue = Queue.None)
    (hvalid : s0.validRun ops = true) :
    (s0.run ops).Inv ∧
    (∀ id h, (s0.run ops).find id = some h → h.queue ≠ Queue.None →
      (id ∈ (s0.run ops).window ∧ id ∉ (s0.run ops).probation ∧ id ∉ (s0.run ops).protected_) ∨
      (id ∉ (s0.run ops).window ∧ id ∈ (s0.run ops).probation ∧ id ∉ (s0.run ops).protected_) ∨
      (id ∉ (s0.run ops).window ∧ id ∉ (s0.run ops).probation ∧ id ∈ (s0.run ops).protected_)) ∧
    (∀ id h, (s0.run ops).find id = some h → h.queue = Queue.None →
      id ∉ (s0.run ops).window ∧ id ∉ (s0.run ops).probation ∧ id ∉ (s0.run ops).protected_) ∧
    (s0.run ops).window_weight + (s0.run ops).probation_weight + (s0.run ops).protected_weight =
      (s0.run ops).trackedWeight := by
  have hinv0 := new_inv capacity sketch_width config hs s0 hok hkeys hnone
  have hinv := run_inv s0 ops hinv0 hvalid
  refine ⟨hinv, ?_, ?_, hinv.weight_sum⟩
  · intro id h hf hne
    exact (hinv.membership_cases hf).2 hne
  · intro id h hf hno
    exact (hinv.membership_cases hf).1 hno

/-- A concrete operation sequence for the C6 witness. -/
def c6Ops : List Op := [Op.push 0, Op.push 1, Op.acquire 1, Op.release 0, Op.pop, Op.remove 0]

/-- The engine state reached by the C6 witness run. -/
def c6State : Lfu := (freshEngine 272 (unitHandles 10)).run c6Ops

/-- Witness for C6: the round-trip property at a concrete run. -/
theorem c6_round_trip_witness :
    c6State.Inv ∧
    (∀ id h, c6State.find id = some h → h.queue ≠ Queue.None →
      (id ∈ c6State.window ∧ id ∉ c6State.probation ∧ id ∉ c6State.protected_) ∨
      (id ∉ c6State.window ∧ id ∈ c6State.probation ∧ id ∉ c6State.protected_) ∨
      (id ∉ c6State.window ∧ id ∉ c6State.probation ∧ id ∈ c6State.protected_)) ∧
    (∀ id h, c6State.find id = some h → h.queue = Queue.None →
      id ∉ c6State.window ∧ id ∉ c6State.probation ∧ id ∉ c6State.protected_) ∧
    c6State.window_weight + c6State.probation_weight + c6State.protected_weight =
      c6State.trackedWeight :=
  c6_round_trip 10 272 testConfig (unitHandles 10) (freshEngine 272 (unitHandles 10)) c6Ops
    (new_testConfig 272 (unitHandles 10)) (by decide) (by decide) (by decide)

end Foyer
